import Mathlib

/-!
Verification of the field codec model of a Protocol Buffers implementation
(the `prost` workspace).  The derive-time field dispatch logic
(`prost-derive/src/field/scalar.rs`, `message.rs`, `mod.rs`) is embedded
directly from the source.  The low-level wire primitives live in
`prost/src/encoding.rs`, which is declared by `src/lib.rs` but is not part of
the provided source tree; those primitives are modelled from the spec
(sections 4.1 and 4.3) and are marked as such in their doc comments.
-/

namespace ProstSpec

/-! ### Wire primitives (WireOps) -/

/-- Modelled from the spec: 7-bits-per-byte little-endian LEB128 varint
encoding worker; the fuel argument only forces structural recursion and is
immaterial whenever it bounds the value (spec section 4.1; the
implementation `prost/src/encoding.rs` is not in the source tree). -/
def encodeVarintF : Nat → Nat → List Nat
  | 0, n => [n]
  | fuel + 1, n => if n < 128 then [n] else (n % 128 + 128) :: encodeVarintF fuel (n / 128)

/-- Modelled from the spec: 7-bits-per-byte little-endian LEB128 varint
encoding with continuation bit (spec section 4.1). -/
def encodeVarint (n : Nat) : List Nat := encodeVarintF n n

theorem encodeVarintF_congr : ∀ fuel n, n ≤ fuel → ∀ fuel2, n ≤ fuel2 →
    encodeVarintF fuel n = encodeVarintF fuel2 n := by
  intro fuel
  induction fuel with
  | zero =>
    intro n hn fuel2 _
    have h0 : n = 0 := by omega
    subst h0
    cases fuel2 <;> rfl
  | succ f ih =>
    intro n hn fuel2 hn2
    by_cases h : n < 128
    · simp only [encodeVarintF, if_pos h]
      cases fuel2 with
      | zero =>
        have h0 : n = 0 := by omega
        subst h0
        rfl
      | succ f2 => simp only [encodeVarintF, if_pos h]
    · cases fuel2 with
      | zero => omega
      | succ f2 =>
        simp only [encodeVarintF, if_neg h]
        have hd : n / 128 ≤ f := by
          have := Nat.div_lt_self (show 0 < n by omega) (show 1 < 128 by omega)
          omega
        have hd2 : n / 128 ≤ f2 := by
          have := Nat.div_lt_self (show 0 < n by omega) (show 1 < 128 by omega)
          omega
        rw [ih (n / 128) hd f2 hd2]

/-- The defining recurrence of the varint encoder. -/
theorem encodeVarint_unfold (n : Nat) :
    encodeVarint n = if n < 128 then [n] else (n % 128 + 128) :: encodeVarint (n / 128) := by
  cases n with
  | zero => rfl
  | succ m =>
    rw [encodeVarint, encodeVarintF]
    by_cases h : m + 1 < 128
    · rw [if_pos h, if_pos h]
    · rw [if_neg h, if_neg h, encodeVarint]
      have hd : (m + 1) / 128 ≤ m := by
        have := Nat.div_lt_self (show 0 < m + 1 by omega) (show 1 < 128 by omega)
        omega
      rw [encodeVarintF_congr m ((m + 1) / 128) hd ((m + 1) / 128) (le_refl _)]

/-- Modelled from the spec: varint decode worker; fails (`none`) with
`Truncated` when the buffer ends before a terminating byte and with
`VarintOverflow` when more than 10 bytes are consumed without termination
(spec section 4.1).  `i` counts the bytes consumed so far, `acc` the value
accumulated from them. -/
def decodeVarintGo : List Nat → Nat → Nat → Option (Nat × List Nat)
  | [], _, _ => none
  | b :: rest, i, acc =>
    if i ≥ 10 then none
    else if b < 128 then some (acc + b * 2 ^ (7 * i), rest)
    else decodeVarintGo rest (i + 1) (acc + b % 128 * 2 ^ (7 * i))

/-- Modelled from the spec: `decodeVarint(cursor) -> u64` (spec section 4.1). -/
def decodeVarint (buf : List Nat) : Option (Nat × List Nat) :=
  decodeVarintGo buf 0 0

/-- Byte length of the varint encoding of `n`. -/
def vlen (n : Nat) : Nat := (encodeVarint n).length

/-- Modelled from the spec: little-endian fixed-width encoding of a `k`-byte
value (spec section 4.1, fixed-width 32/64-bit encode). -/
def encodeLE : Nat → Nat → List Nat
  | 0, _ => []
  | k + 1, p => p % 256 :: encodeLE k (p / 256)

/-- Modelled from the spec: little-endian fixed-width decode of a `k`-byte
value; `none` is the `Truncated` error (spec section 4.1). -/
def decodeLE : Nat → List Nat → Option (Nat × List Nat)
  | 0, buf => some (0, buf)
  | _ + 1, [] => none
  | k + 1, b :: rest =>
    (decodeLE k rest).map fun pr => (b + 256 * pr.1, pr.2)

/-- Modelled from the spec: reading `n` raw bytes of a length-delimited value;
`none` is the `Truncated` error (spec section 4.1). -/
def readN : Nat → List Nat → Option (List Nat × List Nat)
  | 0, buf => some ([], buf)
  | _ + 1, [] => none
  | n + 1, b :: rest => (readN n rest).map fun pr => (b :: pr.1, pr.2)

/-- Two's-complement bit pattern (width `w`) of a signed integer. -/
def toUnsigned (w : Nat) (n : Int) : Nat := (n % (2 ^ w : Nat)).toNat

/-- Signed interpretation of a `w`-bit two's-complement pattern. -/
def toSigned (w : Nat) (p : Nat) : Int :=
  if p < 2 ^ (w - 1) then (p : Int) else (p : Int) - (2 ^ w : Nat)

/-- Modelled from the spec: `zigzagEncode(i64) -> u64 = (n << 1) ^ (n >> 63)`,
generalised over the bit width `w`: the left shift wraps modulo `2 ^ w` and
`n >> (w-1)` is the arithmetic shift, i.e. the all-ones pattern for negative
`n` and zero otherwise (spec section 4.1). -/
def zigzagEncodeW (w : Nat) (n : Int) : Nat :=
  toUnsigned w (n * 2) ^^^ (if n < 0 then 2 ^ w - 1 else 0)

/-- Modelled from the spec: zigzag decode `(n >> 1) ^ -(n & 1)` over width `w`,
the exact inverse of `zigzagEncodeW` (spec section 4.1). -/
def zigzagDecodeW (w : Nat) (u : Nat) : Int :=
  toSigned w (u / 2 ^^^ (if u % 2 = 1 then 2 ^ w - 1 else 0))

/-- Modelled from the spec: the 64-bit zigzag transform used by `sint64`. -/
def zigzagEncode (n : Int) : Nat := zigzagEncodeW 64 n

/-- Modelled from the spec: the 64-bit zigzag inverse. -/
def zigzagDecode (u : Nat) : Int := zigzagDecodeW 64 u

/-! ### Wire primitive lemmas -/

theorem encodeVarint_ne_nil (n : Nat) : encodeVarint n ≠ [] := by
  rw [encodeVarint_unfold]
  split <;> simp

theorem vlen_le (k n : Nat) (hk : 0 < k) (hn : n < 2 ^ (7 * k)) : vlen n ≤ k := by
  induction k generalizing n with
  | zero => omega
  | succ k ih =>
    rw [vlen, encodeVarint_unfold]
    split
    · simp
    · rename_i h
      have hk' : 0 < k := by
        rcases Nat.eq_zero_or_pos k with h0 | h0
        · subst h0; norm_num at hn; omega
        · exact h0
      have hmul : n < 128 * 2 ^ (7 * k) := by
        have hpow : (2 : Nat) ^ (7 * (k + 1)) = 128 * 2 ^ (7 * k) := by
          rw [Nat.mul_succ, Nat.pow_add]
          ring
        omega
      have hdiv : n / 128 < 2 ^ (7 * k) := Nat.div_lt_of_lt_mul hmul
      have := ih (n / 128) hk' hdiv
      rw [vlen] at this
      simp only [List.length_cons]
      omega

theorem decodeVarintGo_append (n : Nat) :
    ∀ i acc rest, i + vlen n ≤ 10 →
      decodeVarintGo (encodeVarint n ++ rest) i acc
        = some (acc + n * 2 ^ (7 * i), rest) := by
  induction n using Nat.strong_induction_on with
  | _ n ih =>
    intro i acc rest hlen
    by_cases h : n < 128
    · rw [encodeVarint_unfold, if_pos h]
      simp only [List.cons_append, List.nil_append, decodeVarintGo]
      have hi : ¬ i ≥ 10 := by
        rw [vlen, encodeVarint_unfold, if_pos h] at hlen
        simp at hlen
        omega
      rw [if_neg hi, if_pos h]
      rfl
    · rw [encodeVarint_unfold, if_neg h]
      simp only [List.cons_append, decodeVarintGo]
      have hvl : vlen n = 1 + vlen (n / 128) := by
        rw [vlen, encodeVarint_unfold, if_neg h]
        simp only [List.length_cons, vlen]
        omega
      have hi : ¬ i ≥ 10 := by omega
      rw [if_neg hi]
      have hb : ¬ (n % 128 + 128 < 128) := by omega
      rw [if_neg hb]
      have hmod : (n % 128 + 128) % 128 = n % 128 := by omega
      rw [hmod]
      have hrec := ih (n / 128) (Nat.div_lt_self (by omega) (by omega))
        (i + 1) (acc + n % 128 * 2 ^ (7 * i)) rest (by omega)
      have harith : acc + n % 128 * 2 ^ (7 * i) + n / 128 * 2 ^ (7 * (i + 1))
          = acc + n * 2 ^ (7 * i) := by
        have hpow : (2 : Nat) ^ (7 * (i + 1)) = 2 ^ (7 * i) * 128 := by
          rw [Nat.mul_succ, Nat.pow_add]
        have hsplit : n = 128 * (n / 128) + n % 128 := (Nat.div_add_mod n 128).symm
        rw [hpow]
        conv_rhs => rw [hsplit]
        ring
      have hee : (encodeVarint (n / 128)).append rest = encodeVarint (n / 128) ++ rest := rfl
      rw [hee, hrec, harith]

theorem decodeVarint_encodeVarint {n : Nat} (hn : n < 2 ^ 64) (rest : List Nat) :
    decodeVarint (encodeVarint n ++ rest) = some (n, rest) := by
  have h70 : n < 2 ^ (7 * 10) := lt_of_lt_of_le hn (by norm_num)
  have hlen : 0 + vlen n ≤ 10 := by
    have := vlen_le 10 n (by norm_num) h70
    omega
  rw [decodeVarint, decodeVarintGo_append n 0 0 rest hlen]
  norm_num

theorem decodeLE_encodeLE {k p : Nat} (hp : p < 256 ^ k) (rest : List Nat) :
    decodeLE k (encodeLE k p ++ rest) = some (p, rest) := by
  induction k generalizing p with
  | zero =>
    have hp0 : p = 0 := by
      norm_num at hp
      omega
    subst hp0
    rfl
  | succ k ih =>
    have hdiv : p / 256 < 256 ^ k := by
      apply Nat.div_lt_of_lt_mul
      rw [pow_succ] at hp
      omega
    have hsplit : p % 256 + 256 * (p / 256) = p := by omega
    simp only [encodeLE, decodeLE, List.cons_append, List.append_eq, ih hdiv, Option.map_some', hsplit]

theorem readN_append (s rest : List Nat) :
    readN s.length (s ++ rest) = some (s, rest) := by
  induction s with
  | nil => rfl
  | cons b t ih => simp [readN, ih]

/-- Complement characterization of xor against an all-ones mask. -/
theorem xor_ones {k x : Nat} (hx : x < 2 ^ k) :
    x ^^^ (2 ^ k - 1) = 2 ^ k - 1 - x := by
  apply Nat.eq_of_testBit_eq
  intro i
  have h1 : 2 ^ k - 1 - x = 2 ^ k - (x + 1) := by omega
  rw [h1, Nat.testBit_two_pow_sub_succ hx]
  rw [Nat.testBit_xor, Nat.testBit_two_pow_sub_one]
  by_cases hik : i < k
  · simp [hik]
  · have hxi : x < 2 ^ i :=
      lt_of_lt_of_le hx (Nat.pow_le_pow_right (by norm_num) (by omega))
    simp [hik, Nat.testBit_lt_two_pow hxi]

theorem zigzag_roundtripW (w : Nat) (hw : 0 < w) {n : Int}
    (hlo : -(2 ^ (w - 1) : Nat) ≤ n) (hhi : n < (2 ^ (w - 1) : Nat)) :
    zigzagDecodeW w (zigzagEncodeW w n) = n := by
  have hpow : (2 ^ w : Nat) = 2 ^ (w - 1) * 2 := by
    conv_lhs => rw [show w = w - 1 + 1 by omega]
    rw [pow_succ]
  have hpowI : ((2 ^ w : Nat) : Int) = ((2 ^ (w - 1) : Nat) : Int) * 2 := by
    exact_mod_cast congrArg (Nat.cast : Nat → Int) hpow
  rcases le_or_lt 0 n with hpos | hneg
  · have hmod : (n * 2) % ((2 ^ w : Nat) : Int) = n * 2 :=
      Int.emod_eq_of_lt (by omega) (by omega)
    rw [zigzagEncodeW, toUnsigned, hmod, if_neg (by omega), Nat.xor_zero]
    have h2 : (n * 2).toNat = 2 * n.toNat := by omega
    rw [zigzagDecodeW, h2]
    rw [if_neg (by omega)]
    have hdiv : 2 * n.toNat / 2 = n.toNat := by omega
    rw [hdiv, Nat.xor_zero, toSigned, if_pos (by omega)]
    omega
  · set m : Nat := (-n).toNat with hm
    have hm1 : 1 ≤ m := by omega
    have hmle : m ≤ 2 ^ (w - 1) := by omega
    have hsplit : n * 2 = (((2 ^ w : Nat) : Int) - 2 * m) + (2 ^ w : Nat) * (-1) := by
      omega
    have hmod : (n * 2) % ((2 ^ w : Nat) : Int) = ((2 ^ w : Nat) : Int) - 2 * m := by
      rw [hsplit, Int.add_mul_emod_self_left]
      exact Int.emod_eq_of_lt (by omega) (by omega)
    rw [zigzagEncodeW, toUnsigned, hmod, if_pos (by omega)]
    have hp : ((((2 ^ w : Nat) : Int)) - 2 * m).toNat = 2 ^ w - 2 * m := by omega
    rw [hp]
    have hxe : (2 ^ w - 2 * m) ^^^ (2 ^ w - 1) = 2 * m - 1 := by
      rw [xor_ones (by omega)]
      omega
    rw [hxe, zigzagDecodeW]
    rw [if_pos (by omega)]
    have hdiv : (2 * m - 1) / 2 = m - 1 := by omega
    rw [hdiv]
    rw [xor_ones (by omega)]
    rw [toSigned, if_neg (by omega)]
    omega

/-- The 64-bit zigzag transform is inverted by its decode on the full `i64`
range. -/
theorem zigzag_roundtrip {n : Int} (hlo : -(2 ^ 63) ≤ n) (hhi : n < 2 ^ 63) :
    zigzagDecode (zigzagEncode n) = n := by
  exact zigzag_roundtripW 64 (by norm_num) (by push_cast; omega) (by push_cast; omega)

/-! ### Scalar field model (`prost-derive/src/field/scalar.rs`) -/

/-- A scalar protobuf field type (`Ty` in `scalar.rs`). -/
inductive Ty where
  | double
  | float
  | int32
  | int64
  | uint32
  | uint64
  | sint32
  | sint64
  | fixed32
  | fixed64
  | sfixed32
  | sfixed64
  | bool
  | string
  | bytes
  | enumeration (name : String)
deriving DecidableEq, Repr

/-- From `scalar.rs`: `Ty::is_numeric`, true unless the type is `string` or
`bytes`. -/
def Ty.is_numeric (t : Ty) : Bool :=
  (t != Ty.string) && (t != Ty.bytes)

/-- Wire type code of a scalar type (spec section 6: 0=Varint, 1=Fixed64,
2=LengthDelimited, 5=Fixed32); enumerations encode as `int32`
(`Ty::encode_as`). -/
def wireTypeOf : Ty → Nat
  | .double | .fixed64 | .sfixed64 => 1
  | .float | .fixed32 | .sfixed32 => 5
  | .string | .bytes => 2
  | _ => 0

/-- Runtime value of a scalar field.  Floating-point values are carried as
their IEEE-754 bit patterns (`f32`/`f64` are stored and transported
bit-exactly by the codec). -/
inductive Value where
  | vF64 (bits : Nat)
  | vF32 (bits : Nat)
  | vI32 (n : Int)
  | vI64 (n : Int)
  | vU32 (n : Nat)
  | vU64 (n : Nat)
  | vBool (b : Bool)
  | vStr (s : List Nat)
  | vBytes (s : List Nat)
deriving DecidableEq, Repr

/-- A value inhabits the Rust representation of a scalar type
(`Ty::rust_type`): matching constructor and machine-integer range; byte-run
lengths are bounded by the 64-bit length space of the wire format. -/
def validValue : Ty → Value → Bool
  | .double, .vF64 b => decide (b < 2 ^ 64)
  | .float, .vF32 b => decide (b < 2 ^ 32)
  | .int32, .vI32 n => decide (-(2 ^ 31 : Int) ≤ n) && decide (n < 2 ^ 31)
  | .sint32, .vI32 n => decide (-(2 ^ 31 : Int) ≤ n) && decide (n < 2 ^ 31)
  | .sfixed32, .vI32 n => decide (-(2 ^ 31 : Int) ≤ n) && decide (n < 2 ^ 31)
  | .int64, .vI64 n => decide (-(2 ^ 63 : Int) ≤ n) && decide (n < 2 ^ 63)
  | .sint64, .vI64 n => decide (-(2 ^ 63 : Int) ≤ n) && decide (n < 2 ^ 63)
  | .sfixed64, .vI64 n => decide (-(2 ^ 63 : Int) ≤ n) && decide (n < 2 ^ 63)
  | .uint32, .vU32 n => decide (n < 2 ^ 32)
  | .fixed32, .vU32 n => decide (n < 2 ^ 32)
  | .uint64, .vU64 n => decide (n < 2 ^ 64)
  | .fixed64, .vU64 n => decide (n < 2 ^ 64)
  | .bool, .vBool _ => true
  | .string, .vStr s => decide (s.length < 2 ^ 64)
  | .bytes, .vBytes s => decide (s.length < 2 ^ 64)
  | .enumeration _, .vI32 n => decide (-(2 ^ 31 : Int) ≤ n) && decide (n < 2 ^ 31)
  | _, _ => false

/-- An `f32` bit pattern denotes a NaN: exponent all ones, fraction
nonzero. -/
def isNaN32 (b : Nat) : Bool :=
  decide (b / 2 ^ 23 % 2 ^ 8 = 2 ^ 8 - 1) && decide (b % 2 ^ 23 ≠ 0)

/-- An `f32` bit pattern denotes positive or negative zero. -/
def isZero32 (b : Nat) : Bool := decide (b % 2 ^ 31 = 0)

/-- An `f64` bit pattern denotes a NaN. -/
def isNaN64 (b : Nat) : Bool :=
  decide (b / 2 ^ 52 % 2 ^ 11 = 2 ^ 11 - 1) && decide (b % 2 ^ 52 ≠ 0)

/-- An `f64` bit pattern denotes positive or negative zero. -/
def isZero64 (b : Nat) : Bool := decide (b % 2 ^ 63 = 0)

/-- IEEE-754 equality of two `f32` bit patterns, as Rust `==` on `f32`
computes it: NaN equals nothing (itself included), the two zeros are equal,
and otherwise equal values have identical patterns. -/
def f32Eq (a b : Nat) : Bool :=
  if isNaN32 a || isNaN32 b then false
  else if isZero32 a && isZero32 b then true
  else a == b

/-- IEEE-754 equality of two `f64` bit patterns (Rust `==` on `f64`). -/
def f64Eq (a b : Nat) : Bool :=
  if isNaN64 a || isNaN64 b then false
  else if isZero64 a && isZero64 b then true
  else a == b

/-- Equality of two scalar values as Rust `PartialEq` (the `==` used by the
generated `encode` guard and by the repository test assertions): IEEE
semantics on the floating types, structural equality elsewhere. -/
def rustEq : Value → Value → Bool
  | .vF64 a, .vF64 b => f64Eq a b
  | .vF32 a, .vF32 b => f32Eq a b
  | a, b => a == b

/-- From `scalar.rs`: the `Kind` of a scalar field; `Plain`, `Optional` and
`Required` carry the field default value (the evaluated form of the
`DefaultValue` the source stores). -/
inductive Kind where
  | plain (d : Value)
  | optional (d : Value)
  | required (d : Value)
  | repeated
  | packed
deriving DecidableEq, Repr

/-- From `scalar.rs`: `DefaultValue::new`, the implicit per-type default.
The enumeration default (`Ty::default()` in the source, an identifier
resolved at expansion time) is modelled as the protobuf enum default 0. -/
def defaultValueOf : Ty → Value
  | .float => .vF32 0
  | .double => .vF64 0
  | .int32 | .sint32 | .sfixed32 => .vI32 0
  | .int64 | .sint64 | .sfixed64 => .vI64 0
  | .uint32 | .fixed32 => .vU32 0
  | .uint64 | .fixed64 => .vU64 0
  | .bool => .vBool false
  | .string => .vStr []
  | .bytes => .vBytes []
  | .enumeration _ => .vI32 0

/-- Modelled from the spec: the raw wire bytes of one scalar value (no tag):
two's-complement sign-extended varint for `int32`/`int64`/enums, plain varint
for the unsigned types and `bool`, zigzag varint for `sint32`/`sint64`,
little-endian fixed-width for the fixed/float types, and
`varint(len) || bytes` for `string`/`bytes` (spec sections 4.1 and 4.3;
`prost/src/encoding.rs` is not in the source tree). -/
def rawValue : Ty → Value → List Nat
  | .int32, .vI32 n => encodeVarint (toUnsigned 64 n)
  | .int64, .vI64 n => encodeVarint (toUnsigned 64 n)
  | .enumeration _, .vI32 n => encodeVarint (toUnsigned 64 n)
  | .uint32, .vU32 n => encodeVarint n
  | .uint64, .vU64 n => encodeVarint n
  | .sint32, .vI32 n => encodeVarint (zigzagEncodeW 32 n)
  | .sint64, .vI64 n => encodeVarint (zigzagEncodeW 64 n)
  | .fixed32, .vU32 n => encodeLE 4 n
  | .sfixed32, .vI32 n => encodeLE 4 (toUnsigned 32 n)
  | .float, .vF32 b => encodeLE 4 b
  | .fixed64, .vU64 n => encodeLE 8 n
  | .sfixed64, .vI64 n => encodeLE 8 (toUnsigned 64 n)
  | .double, .vF64 b => encodeLE 8 b
  | .bool, .vBool b => encodeVarint (if b then 1 else 0)
  | .string, .vStr s => encodeVarint s.length ++ s
  | .bytes, .vBytes s => encodeVarint s.length ++ s
  | _, _ => []

/-- Modelled from the spec: decode one raw scalar value of the given type
from the front of the buffer (spec sections 4.1 and 4.3).  Varint results
are truncated to the Rust storage width exactly as the `as` casts of the
missing `encoding.rs` do. -/
def decodeRaw (ty : Ty) (buf : List Nat) : Option (Value × List Nat) :=
  match ty with
  | .int32 => (decodeVarint buf).map fun pr => (Value.vI32 (toSigned 32 (pr.1 % 2 ^ 32)), pr.2)
  | .enumeration _ => (decodeVarint buf).map fun pr => (Value.vI32 (toSigned 32 (pr.1 % 2 ^ 32)), pr.2)
  | .int64 => (decodeVarint buf).map fun pr => (Value.vI64 (toSigned 64 (pr.1 % 2 ^ 64)), pr.2)
  | .uint32 => (decodeVarint buf).map fun pr => (Value.vU32 (pr.1 % 2 ^ 32), pr.2)
  | .uint64 => (decodeVarint buf).map fun pr => (Value.vU64 (pr.1 % 2 ^ 64), pr.2)
  | .sint32 => (decodeVarint buf).map fun pr => (Value.vI32 (zigzagDecodeW 32 (pr.1 % 2 ^ 32)), pr.2)
  | .sint64 => (decodeVarint buf).map fun pr => (Value.vI64 (zigzagDecodeW 64 (pr.1 % 2 ^ 64)), pr.2)
  | .bool => (decodeVarint buf).map fun pr => (Value.vBool (pr.1 % 2 ^ 64 != 0), pr.2)
  | .fixed32 => (decodeLE 4 buf).map fun pr => (Value.vU32 pr.1, pr.2)
  | .sfixed32 => (decodeLE 4 buf).map fun pr => (Value.vI32 (toSigned 32 pr.1), pr.2)
  | .float => (decodeLE 4 buf).map fun pr => (Value.vF32 pr.1, pr.2)
  | .fixed64 => (decodeLE 8 buf).map fun pr => (Value.vU64 pr.1, pr.2)
  | .sfixed64 => (decodeLE 8 buf).map fun pr => (Value.vI64 (toSigned 64 pr.1), pr.2)
  | .double => (decodeLE 8 buf).map fun pr => (Value.vF64 pr.1, pr.2)
  | .string => (decodeVarint buf).bind fun pr =>
      (readN pr.1 pr.2).map fun qr => (Value.vStr qr.1, qr.2)
  | .bytes => (decodeVarint buf).bind fun pr =>
      (readN pr.1 pr.2).map fun qr => (Value.vBytes qr.1, qr.2)

/-- Modelled from the spec: decode one scalar value arriving under wire type
`wt`; a mismatch is the `UnexpectedWireType` error (spec section 4.4). -/
def decodeValue (ty : Ty) (wt : Nat) (buf : List Nat) : Option (Value × List Nat) :=
  if wt = wireTypeOf ty then decodeRaw ty buf else none

theorem toUnsigned_lt (w : Nat) (n : Int) : toUnsigned w n < 2 ^ w := by
  rw [toUnsigned]
  have h1 : (0 : Int) < ((2 ^ w : Nat) : Int) := by positivity
  have h2 := Int.emod_lt_of_pos n h1
  have h3 := Int.emod_nonneg n (ne_of_gt h1)
  omega

theorem zigzagEncodeW_lt (w : Nat) (n : Int) : zigzagEncodeW w n < 2 ^ w := by
  rw [zigzagEncodeW]
  apply Nat.xor_lt_two_pow (toUnsigned_lt w (n * 2))
  split
  · have : (0 : Nat) < 2 ^ w := by positivity
    omega
  · positivity

/-- Decoding inverts encoding for every valid scalar value, leaving the rest
of the buffer untouched. -/
theorem decodeRaw_rawValue {ty : Ty} {v : Value} (hv : validValue ty v = true)
    (rest : List Nat) :
    decodeRaw ty (rawValue ty v ++ rest) = some (v, rest) := by
  cases ty <;> cases v <;>
      simp only [validValue, Bool.and_eq_true, decide_eq_true_eq] at hv <;>
      try exact absurd hv Bool.false_ne_true
  case double.vF64 b =>
    simp only [rawValue, decodeRaw, decodeLE_encodeLE (show b < 256 ^ 8 by omega) rest,
      Option.map_some']
  case float.vF32 b =>
    simp only [rawValue, decodeRaw, decodeLE_encodeLE (show b < 256 ^ 4 by omega) rest,
      Option.map_some']
  case int32.vI32 n =>
    simp only [rawValue, decodeRaw, decodeVarint_encodeVarint (toUnsigned_lt 64 n) rest,
      Option.map_some']
    have h : toSigned 32 (toUnsigned 64 n % 2 ^ 32) = n := by
      unfold toSigned toUnsigned
      split <;> omega
    rw [h]
  case int64.vI64 n =>
    simp only [rawValue, decodeRaw, decodeVarint_encodeVarint (toUnsigned_lt 64 n) rest,
      Option.map_some']
    have h : toSigned 64 (toUnsigned 64 n % 2 ^ 64) = n := by
      unfold toSigned toUnsigned
      split <;> omega
    rw [h]
  case enumeration.vI32 name n =>
    simp only [rawValue, decodeRaw, decodeVarint_encodeVarint (toUnsigned_lt 64 n) rest,
      Option.map_some']
    have h : toSigned 32 (toUnsigned 64 n % 2 ^ 32) = n := by
      unfold toSigned toUnsigned
      split <;> omega
    rw [h]
  case uint32.vU32 n =>
    simp only [rawValue, decodeRaw,
      decodeVarint_encodeVarint (show n < 2 ^ 64 by omega) rest, Option.map_some']
    rw [Nat.mod_eq_of_lt hv]
  case uint64.vU64 n =>
    simp only [rawValue, decodeRaw, decodeVarint_encodeVarint hv rest, Option.map_some']
    rw [Nat.mod_eq_of_lt hv]
  case sint32.vI32 n =>
    have hlt := zigzagEncodeW_lt 32 n
    simp only [rawValue, decodeRaw,
      decodeVarint_encodeVarint (show zigzagEncodeW 32 n < 2 ^ 64 by omega) rest,
      Option.map_some']
    rw [Nat.mod_eq_of_lt hlt,
      zigzag_roundtripW 32 (by norm_num) (by push_cast; omega) (by push_cast; omega)]
  case sint64.vI64 n =>
    have hlt := zigzagEncodeW_lt 64 n
    simp only [rawValue, decodeRaw, decodeVarint_encodeVarint hlt rest, Option.map_some']
    rw [Nat.mod_eq_of_lt hlt,
      zigzag_roundtripW 64 (by norm_num) (by push_cast; omega) (by push_cast; omega)]
  case fixed32.vU32 n =>
    simp only [rawValue, decodeRaw, decodeLE_encodeLE (show n < 256 ^ 4 by omega) rest,
      Option.map_some']
  case fixed64.vU64 n =>
    simp only [rawValue, decodeRaw, decodeLE_encodeLE (show n < 256 ^ 8 by omega) rest,
      Option.map_some']
  case sfixed32.vI32 n =>
    have hlt := toUnsigned_lt 32 n
    simp only [rawValue, decodeRaw, decodeLE_encodeLE (show toUnsigned 32 n < 256 ^ 4 by omega) rest,
      Option.map_some']
    have h : toSigned 32 (toUnsigned 32 n) = n := by
      unfold toSigned toUnsigned
      split <;> omega
    rw [h]
  case sfixed64.vI64 n =>
    have hlt := toUnsigned_lt 64 n
    simp only [rawValue, decodeRaw, decodeLE_encodeLE (show toUnsigned 64 n < 256 ^ 8 by omega) rest,
      Option.map_some']
    have h : toSigned 64 (toUnsigned 64 n) = n := by
      unfold toSigned toUnsigned
      split <;> omega
    rw [h]
  case bool.vBool b =>
    cases b
    · have h0 : rawValue .bool (.vBool false) = encodeVarint 0 := rfl
      rw [h0]
      simp only [decodeRaw, decodeVarint_encodeVarint (show (0 : Nat) < 2 ^ 64 by norm_num) rest,
        Option.map_some']
      norm_num
    · have h1 : rawValue .bool (.vBool true) = encodeVarint 1 := rfl
      rw [h1]
      simp only [decodeRaw, decodeVarint_encodeVarint (show (1 : Nat) < 2 ^ 64 by norm_num) rest,
        Option.map_some']
      norm_num
  case string.vStr s =>
    simp only [rawValue, decodeRaw, List.append_assoc,
      decodeVarint_encodeVarint hv (s ++ rest), Option.some_bind, readN_append s rest,
      Option.map_some']
  case bytes.vBytes s =>
    simp only [rawValue, decodeRaw, List.append_assoc,
      decodeVarint_encodeVarint hv (s ++ rest), Option.some_bind, readN_append s rest,
      Option.map_some']

/-! ### Field-level codec (`scalar.rs` `Field::encode` / `merge` /
`encoded_len` / `clear`) -/

/-- Runtime storage of one field: `Plain`/`Required` fields store a bare
value, `Optional` an option, `Repeated`/`Packed` a vector. -/
inductive FieldState where
  | single (v : Value)
  | opt (v : Option Value)
  | rep (vs : List Value)
deriving DecidableEq, Repr

/-- From `scalar.rs` `Field::default` (lines 219-225): the freshly
default-initialized storage of a field of the given kind. -/
def freshDefault : Kind → FieldState
  | .plain d | .required d => .single d
  | .optional _ => .opt none
  | .repeated | .packed => .rep []

/-- The field state has the storage shape of the kind. -/
def kindCompat : Kind → FieldState → Bool
  | .plain _, .single _ => true
  | .required _, .single _ => true
  | .optional _, .opt _ => true
  | .repeated, .rep _ => true
  | .packed, .rep _ => true
  | _, _ => false

/-- Tag-plus-value record of one scalar occurrence: the varint key
`(tag << 3) | wireType` followed by the raw value bytes (spec section 4.1,
tag packing). -/
def encOne (ty : Ty) (tag : Nat) (v : Value) : List Nat :=
  encodeVarint (tag * 8 + wireTypeOf ty) ++ rawValue ty v

/-- Packed run bytes of a repeated numeric field: the concatenated raw value
bytes of the elements (spec section 4.3, Packed row). -/
def packedPayload (ty : Ty) (vs : List Value) : List Nat :=
  (vs.map (rawValue ty)).flatten

/-- From `scalar.rs` `Field::encode` (lines 121-149): Plain skips a value
`==` to the default, Optional encodes only a present value, Required always
encodes, Repeated emits one tag+value record per element, and Packed emits
one tag plus one length-delimited run (the per-type `encode_*` functions are
modelled from spec section 4.3). -/
def encodeField (ty : Ty) (kind : Kind) (tag : Nat) (st : FieldState) : List Nat :=
  match kind, st with
  | .plain d, .single v => if rustEq v d then [] else encOne ty tag v
  | .optional _, .opt none => []
  | .optional _, .opt (some v) => encOne ty tag v
  | .required _, .single v => encOne ty tag v
  | .repeated, .rep vs => (vs.map (encOne ty tag)).flatten
  | .packed, .rep vs =>
      encodeVarint (tag * 8 + 2) ++ (encodeVarint (packedPayload ty vs).length
        ++ packedPayload ty vs)
  | _, _ => []

/-- Modelled from the spec: the per-record `encoded_len` functions of the
missing `encoding.rs` report exactly the emitted tag+value byte count
(spec section 4.3 table, encoded length column). -/
def encodedLenOne (ty : Ty) (tag : Nat) (v : Value) : Nat := (encOne ty tag v).length

/-- From `scalar.rs` `Field::encoded_len` (lines 174-202): 0 for a Plain
field at its default and for an absent Optional field, the tag+value length
for a present value, the sum over elements for Repeated, and the framed run
length for Packed. -/
def encodedLenField (ty : Ty) (kind : Kind) (tag : Nat) (st : FieldState) : Nat :=
  match kind, st with
  | .plain d, .single v => if rustEq v d then 0 else encodedLenOne ty tag v
  | .optional _, .opt none => 0
  | .optional _, .opt (some v) => encodedLenOne ty tag v
  | .required _, .single v => encodedLenOne ty tag v
  | .repeated, .rep vs => (vs.map (encodedLenOne ty tag)).sum
  | .packed, .rep vs =>
      (encodeVarint (tag * 8 + 2) ++ (encodeVarint (packedPayload ty vs).length
        ++ packedPayload ty vs)).length
  | _, _ => 0

/-- From `scalar.rs` `Field::clear` (lines 204-216): Plain and Required
assign the configured default, except that `string` and `bytes` fields call
`ident.clear()`, which empties the container; Optional assigns `None`;
Repeated and Packed empty the vector. -/
def clearField (ty : Ty) (kind : Kind) (_st : FieldState) : FieldState :=
  match kind with
  | .plain d | .required d =>
    match ty with
    | .string => .single (.vStr [])
    | .bytes => .single (.vBytes [])
    | _ => .single d
  | .optional _ => .opt none
  | .repeated | .packed => .rep []

/-- Modelled from the spec: packed-run element loop — decode raw values of
the element type until the run is exhausted (spec section 4.3, Packed merge
row).  The fuel is bounded by the byte length of the run. -/
def packedElems (ty : Ty) : Nat → List Nat → Option (List Value)
  | _, [] => some []
  | 0, _ :: _ => none
  | fuel + 1, b :: l =>
    (decodeRaw ty (b :: l)).bind fun pr =>
      (packedElems ty fuel pr.2).map fun ws => pr.1 :: ws

/-- Modelled from the spec: `merge_repeated` of the missing `encoding.rs` —
a repeated numeric field arriving length-delimited is decoded as one packed
run with every element appended; any other arrival decodes one value under
the field wire type and appends it (spec section 4.3, Repeated and Packed
merge rows: the decoder accepts both layouts). -/
def mergeRepeatedScalar (ty : Ty) (vs : List Value) (wt : Nat) (buf : List Nat) :
    Option (List Value × List Nat) :=
  if ty.is_numeric && (wt == 2) then
    (decodeVarint buf).bind fun pr =>
      (readN pr.1 pr.2).bind fun qr =>
        (packedElems ty qr.1.length qr.1).map fun ws => (vs ++ ws, qr.2)
  else
    (decodeValue ty wt buf).map fun pr => (vs ++ [pr.1], pr.2)

/-- From `scalar.rs` `Field::merge` (lines 153-171): Plain and Required
overwrite the stored value with the decoded one, Optional decodes into
`get_or_insert_with(Default::default)` leaving the field present with the
decoded value, and Repeated and Packed both merge through
`merge_repeated`. -/
def scalarMergeField (ty : Ty) (kind : Kind) (st : FieldState) (wt : Nat)
    (buf : List Nat) : Option (FieldState × List Nat) :=
  match kind, st with
  | .plain _, .single _ =>
    (decodeValue ty wt buf).map fun pr => (FieldState.single pr.1, pr.2)
  | .required _, .single _ =>
    (decodeValue ty wt buf).map fun pr => (FieldState.single pr.1, pr.2)
  | .optional _, .opt _ =>
    (decodeValue ty wt buf).map fun pr => (FieldState.opt (some pr.1), pr.2)
  | .repeated, .rep vs =>
    (mergeRepeatedScalar ty vs wt buf).map fun pr => (FieldState.rep pr.1, pr.2)
  | .packed, .rep vs =>
    (mergeRepeatedScalar ty vs wt buf).map fun pr => (FieldState.rep pr.1, pr.2)
  | _, _ => none

/-- Modelled from the spec: the whole-message decode loop of section 4.4,
specialised to a message consisting of the single field numbered `tag`:
repeatedly read a key varint, check the field number, and hand the value
bytes to the field merge.  The fuel bounds the record count; the caller
passes the buffer length. -/
def fieldLoop {σ : Type} (step : σ → Nat → List Nat → Option (σ × List Nat))
    (tag : Nat) : Nat → σ → List Nat → Option σ
  | _, st, [] => some st
  | 0, _, _ :: _ => none
  | fuel + 1, st, b :: l =>
    (decodeVarint (b :: l)).bind fun pr =>
      if pr.1 / 8 = tag then
        (step st (pr.1 % 8) pr.2).bind fun qr => fieldLoop step tag fuel qr.1 qr.2
      else none

/-- Merging a byte stream into a scalar field: the single-field message
decode loop driven by the `scalar.rs` field merge. -/
def mergeStream (ty : Ty) (kind : Kind) (tag : Nat) (st : FieldState)
    (buf : List Nat) : Option FieldState :=
  fieldLoop (scalarMergeField ty kind) tag buf.length st buf

/-- Rust `PartialEq` on whole field storages (derived: pointwise on options
and vectors). -/
def rustEqF : FieldState → FieldState → Bool
  | .single a, .single b => rustEq a b
  | .opt none, .opt none => true
  | .opt (some a), .opt (some b) => rustEq a b
  | .opt _, .opt _ => false
  | .rep va, .rep vb =>
      decide (va.length = vb.length) && (List.zip va vb).all fun pr => rustEq pr.1 pr.2
  | _, _ => false

/-- The value carries no NaN bit pattern (floating-point NaN is the one
value Rust `==` does not relate to itself). -/
def noNaN : Value → Bool
  | .vF32 b => !isNaN32 b
  | .vF64 b => !isNaN64 b
  | _ => true

/-- Per-state validity: every stored value inhabits the field type. -/
def validState (ty : Ty) : FieldState → Bool
  | .single v => validValue ty v
  | .opt none => true
  | .opt (some v) => validValue ty v
  | .rep vs => vs.all (validValue ty)

/-- Per-state NaN freedom. -/
def noNaNState : FieldState → Bool
  | .single v => noNaN v
  | .opt none => true
  | .opt (some v) => noNaN v
  | .rep vs => vs.all noNaN

/-- The complete round-trip observable of the spec round-trip property:
encode the field, merge the produced bytes into a freshly
default-initialized instance, and compare the decoded state with the
original under Rust `PartialEq`. -/
def roundtripOK (ty : Ty) (kind : Kind) (tag : Nat) (st : FieldState) : Bool :=
  ((mergeStream ty kind tag (freshDefault kind) (encodeField ty kind tag st)).map
    fun out => rustEqF out st).getD false

/-- The element list of a repeated storage (empty for the other shapes). -/
def repListOf : FieldState → List Value
  | .rep vs => vs
  | _ => []

/-! ### Round-trip lemmas -/

theorem vlen_pos (n : Nat) : 1 ≤ vlen n := by
  rw [vlen, encodeVarint_unfold]
  split <;> simp

theorem wireTypeOf_lt (ty : Ty) : wireTypeOf ty < 8 := by
  cases ty <;> norm_num [wireTypeOf]

/-- A numeric type never has the length-delimited wire type, so the
unpacked branch of `merge_repeated` is taken whenever a value arrives under
its own wire type. -/
theorem mergeCond (ty : Ty) : (ty.is_numeric && (wireTypeOf ty == 2)) = false := by
  cases ty <;> rfl

theorem rawValue_ne_nil {ty : Ty} {v : Value} (hnum : ty.is_numeric = true)
    (hv : validValue ty v = true) : rawValue ty v ≠ [] := by
  cases ty <;> cases v <;>
      simp only [validValue, Bool.and_eq_true, decide_eq_true_eq] at hv <;>
      try exact absurd hv Bool.false_ne_true
  case string.vStr s => exact absurd hnum (by norm_num [Ty.is_numeric])
  case bytes.vBytes s => exact absurd hnum (by norm_num [Ty.is_numeric])
  case bool.vBool b =>
    simp only [rawValue]
    exact encodeVarint_ne_nil _
  all_goals simp only [rawValue]
  all_goals try exact encodeVarint_ne_nil _
  all_goals simp [encodeLE]

theorem rustEq_refl_of_noNaN {v : Value} (h : noNaN v = true) : rustEq v v = true := by
  cases v with
  | vF32 b =>
    simp only [noNaN, Bool.not_eq_true'] at h
    simp [rustEq, f32Eq, h]
  | vF64 b =>
    simp only [noNaN, Bool.not_eq_true'] at h
    simp [rustEq, f64Eq, h]
  | vI32 n => simp [rustEq]
  | vI64 n => simp [rustEq]
  | vU32 n => simp [rustEq]
  | vU64 n => simp [rustEq]
  | vBool b => simp [rustEq]
  | vStr s => simp [rustEq]
  | vBytes s => simp [rustEq]

theorem f32Eq_symm (a b : Nat) : f32Eq a b = f32Eq b a := by
  unfold f32Eq
  rw [Bool.or_comm, Bool.and_comm]
  rcases eq_or_ne a b with h | h
  · subst h; rfl
  · rw [beq_eq_false_iff_ne.mpr h, beq_eq_false_iff_ne.mpr (Ne.symm h)]

theorem f64Eq_symm (a b : Nat) : f64Eq a b = f64Eq b a := by
  unfold f64Eq
  rw [Bool.or_comm, Bool.and_comm]
  rcases eq_or_ne a b with h | h
  · subst h; rfl
  · rw [beq_eq_false_iff_ne.mpr h, beq_eq_false_iff_ne.mpr (Ne.symm h)]

theorem value_beq_comm (a b : Value) : (a == b) = (b == a) := by
  rcases eq_or_ne a b with h | h
  · subst h; rfl
  · rw [beq_eq_false_iff_ne.mpr h, beq_eq_false_iff_ne.mpr (Ne.symm h)]

theorem rustEq_symm (a b : Value) : rustEq a b = rustEq b a := by
  cases a <;> cases b <;>
    simp only [rustEq] <;>
    first
      | rfl
      | exact f32Eq_symm _ _
      | exact f64Eq_symm _ _
      | exact value_beq_comm _ _

theorem rustEqF_refl {st : FieldState} (h : noNaNState st = true) :
    rustEqF st st = true := by
  cases st with
  | single v => exact rustEq_refl_of_noNaN h
  | opt o =>
    cases o with
    | none => rfl
    | some v => exact rustEq_refl_of_noNaN h
  | rep vs =>
    simp only [noNaNState] at h
    induction vs with
    | nil => rfl
    | cons v t ih =>
      simp only [List.all_cons, Bool.and_eq_true] at h
      simp only [rustEqF, List.zip_cons_cons, List.all_cons, List.length_cons,
        Bool.and_eq_true, decide_eq_true_eq]
      have hih := ih h.2
      simp only [rustEqF, Bool.and_eq_true, decide_eq_true_eq] at hih
      exact ⟨trivial, rustEq_refl_of_noNaN h.1, hih.2⟩

theorem fieldLoop_nil {σ : Type} (step : σ → Nat → List Nat → Option (σ × List Nat))
    (tag fuel : Nat) (st : σ) : fieldLoop step tag fuel st [] = some st := by
  cases fuel <;> rfl

/-- Processing one well-formed record of the single-field message advances
the loop by one step. -/
theorem fieldLoop_record {σ : Type} (step : σ → Nat → List Nat → Option (σ × List Nat))
    {tag : Nat} (htag : 1 ≤ tag) (htlt : tag < 2 ^ 29) {wt : Nat} (hwt : wt < 8)
    {st st' : σ} {val rest : List Nat} {fuel : Nat} (hfuel : 1 ≤ fuel)
    (hstep : step st wt (val ++ rest) = some (st', rest)) :
    fieldLoop step tag fuel st (encodeVarint (tag * 8 + wt) ++ (val ++ rest))
      = fieldLoop step tag (fuel - 1) st' rest := by
  obtain ⟨f, rfl⟩ : ∃ f, fuel = f + 1 := ⟨fuel - 1, by omega⟩
  have hkey : tag * 8 + wt < 2 ^ 64 := by
    have h8 : tag * 8 < 2 ^ 32 := by omega
    omega
  obtain ⟨b, l, hbl⟩ : ∃ b l, encodeVarint (tag * 8 + wt) ++ (val ++ rest) = b :: l := by
    cases h : encodeVarint (tag * 8 + wt) with
    | nil => exact absurd h (encodeVarint_ne_nil _)
    | cons b bs => exact ⟨b, bs ++ (val ++ rest), by simp [h]⟩
  rw [hbl]
  simp only [fieldLoop]
  rw [← hbl, decodeVarint_encodeVarint hkey]
  simp only [Option.some_bind]
  have hdiv : (tag * 8 + wt) / 8 = tag := by omega
  have hmod : (tag * 8 + wt) % 8 = wt := by omega
  rw [hdiv, if_pos rfl, hmod, hstep]
  simp only [Option.some_bind, Nat.add_sub_cancel]

/-- The unpacked record run of a repeated scalar field merges element by
element, appending in order. -/
theorem fieldLoop_unpacked {ty : Ty} {tag : Nat} (htag : 1 ≤ tag) (htlt : tag < 2 ^ 29)
    {kind : Kind} (hk : kind = Kind.repeated ∨ kind = Kind.packed) :
    ∀ (vs acc : List Value) (fuel : Nat), vs.length ≤ fuel →
      (∀ v ∈ vs, validValue ty v = true) →
      fieldLoop (scalarMergeField ty kind) tag fuel (FieldState.rep acc)
        ((vs.map (encOne ty tag)).flatten) = some (FieldState.rep (acc ++ vs)) := by
  intro vs
  induction vs with
  | nil =>
    intro acc fuel _ _
    simp [fieldLoop_nil]
  | cons v t ih =>
    intro acc fuel hfuel hv
    simp only [List.map_cons, List.flatten_cons]
    have hv0 : validValue ty v = true := hv v (by simp)
    have hstep : scalarMergeField ty kind (FieldState.rep acc) (wireTypeOf ty)
        (rawValue ty v ++ (t.map (encOne ty tag)).flatten)
        = some (FieldState.rep (acc ++ [v]), (t.map (encOne ty tag)).flatten) := by
      have hmc := mergeCond ty
      rcases hk with rfl | rfl <;>
        simp [scalarMergeField, mergeRepeatedScalar, hmc, decodeValue,
          decodeRaw_rawValue hv0]
    have h1 : 1 ≤ fuel := by
      simp only [List.length_cons] at hfuel
      omega
    rw [encOne, List.append_assoc,
      fieldLoop_record (scalarMergeField ty kind) htag htlt (wireTypeOf_lt ty) h1 hstep]
    have hrec := ih (acc ++ [v]) (fuel - 1)
      (by simp only [List.length_cons] at hfuel; omega)
      (fun w hw => hv w (by simp [hw]))
    rw [hrec]
    simp

theorem packedPayload_count {ty : Ty} (hnum : ty.is_numeric = true) :
    ∀ vs : List Value, (∀ v ∈ vs, validValue ty v = true) →
      vs.length ≤ (packedPayload ty vs).length := by
  intro vs
  induction vs with
  | nil => intro _; simp [packedPayload]
  | cons v t ih =>
    intro hv
    have hne : rawValue ty v ≠ [] := rawValue_ne_nil hnum (hv v (by simp))
    have h2 : 1 ≤ (rawValue ty v).length := by
      cases hr : rawValue ty v with
      | nil => exact absurd hr hne
      | cons b bs => simp
    have ht := ih (fun w hw => hv w (by simp [hw]))
    simp only [packedPayload, List.map_cons, List.flatten_cons, List.length_append,
      List.length_cons]
    simp only [packedPayload] at ht
    omega

/-- Decoding a packed run recovers exactly the encoded element sequence. -/
theorem packedElems_payload {ty : Ty} (hnum : ty.is_numeric = true) :
    ∀ (vs : List Value) (fuel : Nat), vs.length ≤ fuel →
      (∀ v ∈ vs, validValue ty v = true) →
      packedElems ty fuel (packedPayload ty vs) = some vs := by
  intro vs
  induction vs with
  | nil =>
    intro fuel _ _
    cases fuel <;> rfl
  | cons v t ih =>
    intro fuel hfuel hv
    obtain ⟨f, rfl⟩ : ∃ f, fuel = f + 1 := by
      refine ⟨fuel - 1, ?_⟩
      simp only [List.length_cons] at hfuel
      omega
    have hv0 := hv v (by simp)
    have hne : rawValue ty v ≠ [] := rawValue_ne_nil hnum hv0
    simp only [packedPayload, List.map_cons, List.flatten_cons]
    obtain ⟨b, l, hbl⟩ : ∃ b l,
        rawValue ty v ++ (t.map (rawValue ty)).flatten = b :: l := by
      cases hr : rawValue ty v with
      | nil => exact absurd hr hne
      | cons b bs => exact ⟨b, bs ++ (t.map (rawValue ty)).flatten, by simp [hr]⟩
    rw [hbl]
    simp only [packedElems]
    rw [← hbl, decodeRaw_rawValue hv0]
    simp only [Option.some_bind]
    have hrec := ih f (by simp only [List.length_cons] at hfuel; omega)
      (fun w hw => hv w (by simp [hw]))
    simp only [packedPayload] at hrec
    rw [hrec]
    rfl

theorem mergeStream_encOne {ty : Ty} {kind : Kind} (tag : Nat) (htag : 1 ≤ tag)
    (htlt : tag < 2 ^ 29) {st0 st1 : FieldState} {v : Value}
    (hstep : scalarMergeField ty kind st0 (wireTypeOf ty) (rawValue ty v)
      = some (st1, [])) :
    mergeStream ty kind tag st0 (encOne ty tag v) = some st1 := by
  rw [mergeStream, encOne]
  have hfuel : 1 ≤ (encodeVarint (tag * 8 + wireTypeOf ty) ++ rawValue ty v).length := by
    simp only [List.length_append]
    have h1 := vlen_pos (tag * 8 + wireTypeOf ty)
    rw [vlen] at h1
    omega
  have hstep' : scalarMergeField ty kind st0 (wireTypeOf ty) (rawValue ty v ++ [])
      = some (st1, []) := by
    rw [List.append_nil]
    exact hstep
  have h2 : encodeVarint (tag * 8 + wireTypeOf ty) ++ rawValue ty v
      = encodeVarint (tag * 8 + wireTypeOf ty) ++ (rawValue ty v ++ []) := by
    rw [List.append_nil]
  rw [h2] at hfuel ⊢
  rw [fieldLoop_record _ htag htlt (wireTypeOf_lt ty) hfuel hstep', fieldLoop_nil]

theorem encOne_records_length (ty : Ty) (tag : Nat) (vs : List Value) :
    vs.length ≤ ((vs.map (encOne ty tag)).flatten).length := by
  induction vs with
  | nil => simp
  | cons v t ih =>
    simp only [List.map_cons, List.flatten_cons, List.length_append, List.length_cons]
    have h1 : 1 ≤ (encOne ty tag v).length := by
      simp only [encOne, List.length_append]
      have h2 := vlen_pos (tag * 8 + wireTypeOf ty)
      rw [vlen] at h2
      omega
    omega

/-- C1 (amended): for every scalar FieldDescriptor `(ty, kind, tag)` and
every valid, NaN-free value of the declared field type, encoding the field
and merging the produced bytes into a freshly default-initialized instance
yields a value `==` (Rust `PartialEq`) to the original; in particular a
packed repeated numeric field decodes to the same element sequence.  The
packed hypotheses record the `Field::new` invariant that Packed kinds hold
numeric types and the wire-format bound that a length-delimited run is at
most `2^64 - 1` bytes. -/
theorem c1_field_roundtrip (ty : Ty) (kind : Kind) (tag : Nat) (st : FieldState)
    (hc : kindCompat kind st = true)
    (hv : validState ty st = true)
    (hn : noNaNState st = true)
    (htag : 1 ≤ tag) (htlt : tag < 2 ^ 29)
    (hnum : kind = Kind.packed → ty.is_numeric = true)
    (hlen : kind = Kind.packed → (packedPayload ty (repListOf st)).length < 2 ^ 64) :
    roundtripOK ty kind tag st = true := by
  cases kind with
  | plain d =>
    cases st with
    | opt o => simp [kindCompat] at hc
    | rep vs => simp [kindCompat] at hc
    | single v =>
      simp only [validState] at hv
      simp only [noNaNState] at hn
      by_cases he : rustEq v d = true
      · simp only [roundtripOK, encodeField, if_pos he, mergeStream, List.length_nil,
          fieldLoop_nil, freshDefault, Option.map_some', Option.getD_some]
        simp only [rustEqF]
        rw [rustEq_symm]
        exact he
      · have hdec := decodeRaw_rawValue hv ([] : List Nat)
        rw [List.append_nil] at hdec
        have hstep : scalarMergeField ty (Kind.plain d) (FieldState.single d)
            (wireTypeOf ty) (rawValue ty v) = some (FieldState.single v, []) := by
          simp [scalarMergeField, decodeValue, hdec]
        simp only [roundtripOK, encodeField, if_neg he, freshDefault]
        rw [mergeStream_encOne tag htag htlt hstep]
        simp only [Option.map_some', Option.getD_some, rustEqF]
        exact rustEq_refl_of_noNaN hn
  | required d =>
    cases st with
    | opt o => simp [kindCompat] at hc
    | rep vs => simp [kindCompat] at hc
    | single v =>
      simp only [validState] at hv
      simp only [noNaNState] at hn
      have hdec := decodeRaw_rawValue hv ([] : List Nat)
      rw [List.append_nil] at hdec
      have hstep : scalarMergeField ty (Kind.required d) (FieldState.single d)
          (wireTypeOf ty) (rawValue ty v) = some (FieldState.single v, []) := by
        simp [scalarMergeField, decodeValue, hdec]
      simp only [roundtripOK, encodeField, freshDefault]
      rw [mergeStream_encOne tag htag htlt hstep]
      simp only [Option.map_some', Option.getD_some, rustEqF]
      exact rustEq_refl_of_noNaN hn
  | optional d =>
    cases st with
    | single v => simp [kindCompat] at hc
    | rep vs => simp [kindCompat] at hc
    | opt o =>
      cases o with
      | none =>
        simp only [roundtripOK, encodeField, mergeStream, List.length_nil,
          fieldLoop_nil, freshDefault, Option.map_some', Option.getD_some]
        rfl
      | some v =>
        simp only [validState] at hv
        simp only [noNaNState] at hn
        have hdec := decodeRaw_rawValue hv ([] : List Nat)
        rw [List.append_nil] at hdec
        have hstep : scalarMergeField ty (Kind.optional d) (FieldState.opt none)
            (wireTypeOf ty) (rawValue ty v) = some (FieldState.opt (some v), []) := by
          simp [scalarMergeField, decodeValue, hdec]
        simp only [roundtripOK, encodeField, freshDefault]
        rw [mergeStream_encOne tag htag htlt hstep]
        simp only [Option.map_some', Option.getD_some, rustEqF]
        exact rustEq_refl_of_noNaN hn
  | repeated =>
    cases st with
    | single v => simp [kindCompat] at hc
    | opt o => simp [kindCompat] at hc
    | rep vs =>
      simp only [validState, List.all_eq_true] at hv
      simp only [roundtripOK, encodeField, freshDefault, mergeStream]
      rw [fieldLoop_unpacked htag htlt (Or.inl rfl) vs []
        ((vs.map (encOne ty tag)).flatten).length (encOne_records_length ty tag vs) hv]
      simp only [List.nil_append, Option.map_some', Option.getD_some]
      exact rustEqF_refl hn
  | packed =>
    cases st with
    | single v => simp [kindCompat] at hc
    | opt o => simp [kindCompat] at hc
    | rep vs =>
      have hnum' : ty.is_numeric = true := hnum rfl
      have hlen' : (packedPayload ty vs).length < 2 ^ 64 := hlen rfl
      simp only [validState, List.all_eq_true] at hv
      have hr := readN_append (packedPayload ty vs) []
      rw [List.append_nil] at hr
      have hpe := packedElems_payload hnum' vs (packedPayload ty vs).length
        (packedPayload_count hnum' vs hv) hv
      have hstep : scalarMergeField ty Kind.packed (FieldState.rep []) 2
          ((encodeVarint (packedPayload ty vs).length ++ packedPayload ty vs) ++ [])
          = some (FieldState.rep vs, []) := by
        rw [List.append_nil]
        simp only [scalarMergeField, mergeRepeatedScalar, hnum', Bool.true_and,
          beq_self_eq_true, if_pos]
        rw [decodeVarint_encodeVarint hlen' (packedPayload ty vs)]
        simp only [Option.some_bind, hr, hpe, Option.map_some']
        simp
      simp only [roundtripOK, encodeField, freshDefault, mergeStream]
      have hb : encodeVarint (tag * 8 + 2)
            ++ (encodeVarint (packedPayload ty vs).length ++ packedPayload ty vs)
          = encodeVarint (tag * 8 + 2)
            ++ ((encodeVarint (packedPayload ty vs).length ++ packedPayload ty vs) ++ []) := by
        rw [List.append_nil]
      rw [hb]
      have hfuel : 1 ≤ (encodeVarint (tag * 8 + 2)
          ++ ((encodeVarint (packedPayload ty vs).length ++ packedPayload ty vs) ++ [])).length := by
        simp only [List.length_append]
        have h1 := vlen_pos (tag * 8 + 2)
        rw [vlen] at h1
        omega
      rw [fieldLoop_record _ htag htlt (by norm_num) hfuel hstep, fieldLoop_nil]
      simp only [Option.map_some', Option.getD_some]
      exact rustEqF_refl hn

/-- C1 counterexample: a Required `float` field holding the NaN bit pattern
is a valid field value, yet merging its own encoding into a fresh instance
yields a value that is not `==` to the original (NaN is never equal to
itself under Rust `PartialEq`), so the round-trip property as universally
stated fails. -/
theorem c1_counterexample :
    validState Ty.float (FieldState.single (Value.vF32 2143289344)) = true ∧
    kindCompat (Kind.required (Value.vF32 0)) (FieldState.single (Value.vF32 2143289344)) = true ∧
    roundtripOK Ty.float (Kind.required (Value.vF32 0)) 1
      (FieldState.single (Value.vF32 2143289344)) = false := by
  refine ⟨by decide, by decide, ?_⟩
  decide

/-- C1 witness: a packed `uint32` field with elements 1 and 300 round-trips. -/
theorem c1_witness :
    validState Ty.uint32 (FieldState.rep [Value.vU32 1, Value.vU32 300]) = true ∧
    roundtripOK Ty.uint32 Kind.packed 1 (FieldState.rep [Value.vU32 1, Value.vU32 300]) = true :=
  ⟨by decide,
    c1_field_roundtrip Ty.uint32 Kind.packed 1 (FieldState.rep [Value.vU32 1, Value.vU32 300])
      (by decide) (by decide) (by decide) (by decide) (by decide)
      (fun _ => by decide) (fun _ => by decide)⟩

/-! ### Claims about elision, clear, and zigzag -/

/-- C2: a Plain-labeled scalar field whose current value is `==` to its
default encodes to zero bytes and reports encoded length 0, while a
Required-labeled field holding the same value still emits its tag+value
record and reports that record's (nonzero) length. -/
theorem c2_default_elision (ty : Ty) (d v : Value) (tag : Nat)
    (he : rustEq v d = true) :
    encodeField ty (Kind.plain d) tag (FieldState.single v) = [] ∧
    encodedLenField ty (Kind.plain d) tag (FieldState.single v) = 0 ∧
    encodeField ty (Kind.required d) tag (FieldState.single v) = encOne ty tag v ∧
    encodedLenField ty (Kind.required d) tag (FieldState.single v)
      = (encOne ty tag v).length ∧
    0 < (encOne ty tag v).length := by
  refine ⟨?_, ?_, rfl, rfl, ?_⟩
  · simp [encodeField, he]
  · simp [encodedLenField, he]
  · simp only [encOne, List.length_append]
    have h1 := vlen_pos (tag * 8 + wireTypeOf ty)
    rw [vlen] at h1
    omega

/-- C2 witness: a `uint32` field with default 7 holding 7. -/
theorem c2_witness :
    encodeField Ty.uint32 (Kind.plain (Value.vU32 7)) 1 (FieldState.single (Value.vU32 7)) = [] ∧
    encodeField Ty.uint32 (Kind.required (Value.vU32 7)) 1 (FieldState.single (Value.vU32 7))
      = encOne Ty.uint32 1 (Value.vU32 7) := by
  have h := c2_default_elision Ty.uint32 (Value.vU32 7) (Value.vU32 7) 1 (by decide)
  exact ⟨h.1, h.2.2.1⟩

/-- C5 (amended): `clear` resets a Plain or Required field of a
numeric/bool/enum type to its configured default; for `string` and `bytes`
it empties the container (which coincides with the configured default only
when that default is empty); it sets an Optional field to `None`; and it
empties the sequence of a Repeated or Packed field. -/
theorem c5_clear (ty : Ty) (kind : Kind) (st : FieldState) :
    (∀ d, (kind = Kind.plain d ∨ kind = Kind.required d) →
      (ty ≠ Ty.string → ty ≠ Ty.bytes → clearField ty kind st = FieldState.single d) ∧
      (ty = Ty.string → clearField ty kind st = FieldState.single (Value.vStr [])) ∧
      (ty = Ty.bytes → clearField ty kind st = FieldState.single (Value.vBytes []))) ∧
    (∀ d, kind = Kind.optional d → clearField ty kind st = FieldState.opt none) ∧
    ((kind = Kind.repeated ∨ kind = Kind.packed) → clearField ty kind st = FieldState.rep []) := by
  refine ⟨?_, ?_, ?_⟩
  · intro d hd
    rcases hd with rfl | rfl <;>
      exact ⟨fun h1 h2 => by cases ty <;> simp_all [clearField],
        fun h => by subst h; rfl,
        fun h => by subst h; rfl⟩
  · intro d hd
    subst hd
    rfl
  · intro hd
    rcases hd with rfl | rfl <;> rfl

/-- C5 counterexample: a Plain `string` field with configured default "a"
clears to the empty string, not to its default — `clear` is not
"reset to the configured default" for every scalar type and default. -/
theorem c5_counterexample :
    clearField Ty.string (Kind.plain (Value.vStr [97])) (FieldState.single (Value.vStr [97]))
      = FieldState.single (Value.vStr []) ∧
    FieldState.single (Value.vStr []) ≠ FieldState.single (Value.vStr [97]) := by
  decide

/-- C5 witness: a `uint32` Plain field with non-zero default 7 clears to 7,
and an Optional field clears to absent. -/
theorem c5_witness :
    clearField Ty.uint32 (Kind.plain (Value.vU32 7)) (FieldState.single (Value.vU32 9))
      = FieldState.single (Value.vU32 7) ∧
    clearField Ty.uint32 (Kind.optional (Value.vU32 7)) (FieldState.opt (some (Value.vU32 9)))
      = FieldState.opt none := by
  constructor
  · exact ((c5_clear Ty.uint32 (Kind.plain (Value.vU32 7))
      (FieldState.single (Value.vU32 9))).1 (Value.vU32 7) (Or.inl rfl)).1
      (by decide) (by decide)
  · exact (c5_clear Ty.uint32 (Kind.optional (Value.vU32 7))
      (FieldState.opt (some (Value.vU32 9)))).2.1 (Value.vU32 7) rfl

/-- C9: `zigzagDecode` is the exact inverse of
`zigzagEncode(n) = (n << 1) ^ (n >> 63)` on the whole `i64` range,
`i64::MIN` and `i64::MAX` included. -/
theorem c9_zigzag_exact_inverse (n : Int) (hlo : -(2 ^ 63) ≤ n) (hhi : n < 2 ^ 63) :
    zigzagDecode (zigzagEncode n) = n :=
  zigzag_roundtrip hlo hhi

/-- C9 witness: the inverse property at `i64::MIN` and `i64::MAX`. -/
theorem c9_witness :
    zigzagDecode (zigzagEncode (-(2 ^ 63))) = -(2 ^ 63) ∧
    zigzagDecode (zigzagEncode (2 ^ 63 - 1)) = 2 ^ 63 - 1 :=
  ⟨c9_zigzag_exact_inverse (-(2 ^ 63)) (by norm_num) (by norm_num),
   c9_zigzag_exact_inverse (2 ^ 63 - 1) (by norm_num) (by norm_num)⟩

/-! ### Descriptor construction (`scalar.rs` `Field::new` / `new_oneof`) -/

/-- From `field/mod.rs`: the explicit field label attribute. -/
inductive Label where
  | optional
  | required
  | repeated
deriving DecidableEq, Repr

/-- From `scalar.rs`: a validated scalar field descriptor. -/
structure Field where
  ty : Ty
  kind : Kind
  tag : Nat
deriving DecidableEq, Repr

/-- From `scalar.rs` `Field::new` (lines 69-102), after attribute parsing:
the tag attribute is mandatory; a configured default (when present)
replaces the per-type implicit default; then the
`match (label, packed, has_default)` block (lines 78-96) decides the kind or
rejects the combination with the quoted schema error.  The Rust guard
fall-through of the `Some(Repeated)` arms is written as an explicit
cascade. -/
def scalarFieldNew (ty : Ty) (label : Option Label) (packed : Option Bool)
    (dflt : Option Value) (tag : Option Nat) : Except String Field :=
  match tag with
  | none => .error "missing tag attribute"
  | some tag =>
    let hasDefault := dflt.isSome
    let dfltVal := dflt.getD (defaultValueOf ty)
    match label, packed with
    | none, some true => .error "packed attribute may only be applied to repeated fields"
    | some .optional, some true =>
        .error "packed attribute may only be applied to repeated fields"
    | some .required, some true =>
        .error "packed attribute may only be applied to repeated fields"
    | some .repeated, packedOpt =>
        if packedOpt == some true && !ty.is_numeric then
          .error "packed attribute may only be applied to numeric types"
        else if hasDefault then
          .error "repeated fields may not have a default value"
        else if packedOpt.getD ty.is_numeric then
          .ok ⟨ty, Kind.packed, tag⟩
        else
          .ok ⟨ty, Kind.repeated, tag⟩
    | none, _ => .ok ⟨ty, Kind.plain dfltVal, tag⟩
    | some .optional, _ => .ok ⟨ty, Kind.optional dfltVal, tag⟩
    | some .required, _ => .ok ⟨ty, Kind.required dfltVal, tag⟩

/-- From `scalar.rs` `Field::new_oneof` (lines 105-119): run `Field::new`,
promote a Plain kind to Required, and reject the optional, required and
repeated label attributes. -/
def scalarFieldNewOneof (ty : Ty) (label : Option Label) (packed : Option Bool)
    (dflt : Option Value) (tag : Option Nat) : Except String Field :=
  match scalarFieldNew ty label packed dflt tag with
  | .error e => .error e
  | .ok f =>
    match f.kind with
    | .plain d => .ok { f with kind := Kind.required d }
    | .optional _ => .error "invalid optional attribute on oneof field"
    | .required _ => .error "invalid required attribute on oneof field"
    | .repeated => .error "invalid repeated attribute on oneof field"
    | .packed => .error "invalid repeated attribute on oneof field"

/-- C6 (amended): an explicit default value is accepted together with the
Plain (no label), Optional and Required labels, and is rejected exactly for
the Repeated label. -/
theorem c6_default_labels (ty : Ty) (d : Value) (t : Nat) :
    scalarFieldNew ty none none (some d) (some t) = .ok ⟨ty, Kind.plain d, t⟩ ∧
    scalarFieldNew ty (some .optional) none (some d) (some t)
      = .ok ⟨ty, Kind.optional d, t⟩ ∧
    scalarFieldNew ty (some .required) none (some d) (some t)
      = .ok ⟨ty, Kind.required d, t⟩ ∧
    ∀ p, (scalarFieldNew ty (some .repeated) p (some d) (some t)).isOk = false := by
  refine ⟨rfl, rfl, rfl, ?_⟩
  intro p
  rcases p with _ | b
  · rfl
  · cases b
    · rfl
    · simp only [scalarFieldNew]
      split
      · rfl
      · rfl

/-- C6 counterexample: a Required field with an explicit default is accepted
by `Field::new` (it yields `Kind::Required(default)`), contradicting the
claim that any label other than Plain/Optional is rejected. -/
theorem c6_counterexample :
    scalarFieldNew Ty.uint32 (some Label.required) none (some (Value.vU32 7)) (some 1)
      = Except.ok ⟨Ty.uint32, Kind.required (Value.vU32 7), 1⟩ := by
  rfl

/-- C10: a Repeated field of numeric scalar type with no packed attribute is
given the Packed kind, while an explicit `packed = false` yields the
unpacked Repeated kind. -/
theorem c10_packed_default (ty : Ty) (t : Nat) (hn : ty.is_numeric = true) :
    scalarFieldNew ty (some .repeated) none none (some t) = .ok ⟨ty, Kind.packed, t⟩ ∧
    scalarFieldNew ty (some .repeated) (some false) none (some t)
      = .ok ⟨ty, Kind.repeated, t⟩ := by
  constructor <;> simp [scalarFieldNew, hn]

/-- C10 witness: repeated `uint32` defaults to packed; `packed = false`
opts out. -/
theorem c10_witness :
    scalarFieldNew Ty.uint32 (some .repeated) none none (some 1)
      = .ok ⟨Ty.uint32, Kind.packed, 1⟩ ∧
    scalarFieldNew Ty.uint32 (some .repeated) (some false) none (some 1)
      = .ok ⟨Ty.uint32, Kind.repeated, 1⟩ :=
  c10_packed_default Ty.uint32 1 (by decide)

/-! ### Message field construction (`message.rs` `Field::new` / `new_oneof`) -/

/-- Attribute presence of a message field before validation (`message.rs`
`Field::new` locals): the optional label plus one flag per conversion-hook
attribute. -/
structure MsgAttrs where
  label : Option Label
  as_msg : Bool
  as_msgs : Bool
  to_msg : Bool
  to_msgs : Bool
  from_msg : Bool
  merge_msg : Bool
deriving DecidableEq, Repr

/-- A validated message field descriptor (`message.rs` `Field`): the label
(defaulted to Optional) and the retained hook attributes. -/
structure MsgField where
  label : Label
  tag : Nat
  as_msg : Bool
  as_msgs : Bool
  to_msg : Bool
  to_msgs : Bool
  from_msg : Bool
  merge_msg : Bool
deriving DecidableEq, Repr

/-- From `message.rs` `Field::new` (lines 25-144), after attribute parsing:
the tag falls back to the inferred tag (line 82), then the repeated branch
(lines 87-112) and the non-repeated branch (lines 113-131) run their
`ensure!` hook checks, and the field is built with
`label.unwrap_or(Label::Optional)` (line 135). -/
def messageFieldNew (a : MsgAttrs) (tag : Option Nat) (inferredTag : Option Nat) :
    Except String MsgField :=
  match tag.or inferredTag with
  | none => .error "message field is missing a tag attribute"
  | some tag =>
    if a.label = some Label.repeated then
      if !(!(a.as_msg || a.as_msgs || a.to_msg || a.to_msgs || a.from_msg || a.merge_msg)
          || a.as_msg || a.as_msgs || a.to_msg || a.to_msgs) then
        .error "missing as_msg, as_msgs, to_msg, or to_msgs attribute"
      else if !((!a.as_msgs && !a.to_msgs) || (!a.as_msg && !a.to_msg)) then
        .error "cannot use as_msg or to_msg and as_msgs or to_msgs at the same time"
      else if !(!(a.as_msg || a.as_msgs || a.to_msg || a.to_msgs || a.from_msg || a.merge_msg)
          || (!a.as_msgs && !a.to_msgs) || a.merge_msg) then
        .error "missing merge_msg attribute"
      else if !(!(a.as_msg || a.as_msgs || a.to_msg || a.to_msgs || a.from_msg || a.merge_msg)
          || a.from_msg || a.merge_msg) then
        .error "missing from_msg, or merge_msg attribute"
      else
        .ok ⟨Label.repeated, tag, a.as_msg, a.as_msgs, a.to_msg, a.to_msgs,
          a.from_msg, a.merge_msg⟩
    else
      if !(!a.as_msgs && !a.to_msgs) then
        .error "as_msgs and to_msgs attributes are only supported for repeated fields"
      else
        if !(!(a.as_msg || a.to_msg || a.from_msg || a.merge_msg) || a.as_msg || a.to_msg) then
          .error "missing as_msg or to_msg attribute"
        else if !(!(a.as_msg || a.to_msg || a.from_msg || a.merge_msg)
            || a.from_msg || a.merge_msg) then
          .error "missing from_msg or merge_msg attribute"
        else
          .ok ⟨a.label.getD Label.optional, tag, a.as_msg, a.as_msgs, a.to_msg,
            a.to_msgs, a.from_msg, a.merge_msg⟩

/-- From `message.rs` `Field::new_oneof` (lines 146-167): run `Field::new`
with no inferred tag, reject any of the `as_msg`/`to_msg`/`from_msg`/
`merge_msg` hooks, reject any explicit label attribute, and force the label
to Required. -/
def messageFieldNewOneof (a : MsgAttrs) (tag : Option Nat) : Except String MsgField :=
  match messageFieldNew a tag none with
  | .error e => .error e
  | .ok f =>
    if f.as_msg || f.to_msg || f.from_msg || f.merge_msg then
      .error "oneof messages cannot have as_msg, to_msg, from_msg, or merge_msg attributes"
    else if a.label.isSome then
      .error "invalid attribute for oneof field"
    else
      .ok { f with label := Label.required }

/-- C7 (amended): for a non-repeated converting message field, construction
succeeds exactly when no plural hook is present, at least one of
`as_msg`/`to_msg` is supplied, and at least one of `from_msg`/`merge_msg`
is supplied (not "exactly one": both members of a pair may be given); a
plural hook on a non-repeated field is always rejected. -/
theorem c7_nonrepeated_hooks (a : MsgAttrs) (t : Nat)
    (hl : a.label ≠ some Label.repeated)
    (hc : (a.as_msg || a.to_msg || a.from_msg || a.merge_msg) = true) :
    ((messageFieldNew a (some t) none).isOk = true ↔
      (a.as_msgs = false ∧ a.to_msgs = false ∧ (a.as_msg || a.to_msg) = true ∧
        (a.from_msg || a.merge_msg) = true)) ∧
    ((a.as_msgs || a.to_msgs) = true → (messageFieldNew a (some t) none).isOk = false) := by
  rcases a with ⟨l, a1, a2, a3, a4, a5, a6⟩
  cases a1 <;> cases a2 <;> cases a3 <;> cases a4 <;> cases a5 <;> cases a6 <;>
    simp_all [messageFieldNew, Except.isOk, Except.toBool, hl]

/-- C7 counterexample: a non-repeated field supplying both `as_msg` and
`to_msg` (two single-value 'to' hooks) together with `from_msg` is accepted
by `Field::new`, so "exactly one" is not enforced. -/
theorem c7_counterexample :
    messageFieldNew ⟨none, true, false, true, false, true, false⟩ (some 1) none
      = Except.ok ⟨Label.optional, 1, true, false, true, false, true, false⟩ := by
  rfl

/-- C7 witness: an `as_msg` + `from_msg` non-repeated field is accepted, as
the amended rule predicts. -/
theorem c7_witness :
    (messageFieldNew ⟨none, true, false, false, false, true, false⟩ (some 1) none).isOk
      = true :=
  (c7_nonrepeated_hooks ⟨none, true, false, false, false, true, false⟩ 1
    (by decide) (by decide)).1.mpr (by decide)

/-- A successful `messageFieldNew` retains the hook attribute flags it was
given (both the repeated and the non-repeated `Ok` branch copy them). -/
theorem messageFieldNew_hooks {a : MsgAttrs} {tg itg : Option Nat} {f : MsgField}
    (h : messageFieldNew a tg itg = .ok f) :
    f.as_msg = a.as_msg ∧ f.to_msg = a.to_msg ∧ f.from_msg = a.from_msg ∧
    f.merge_msg = a.merge_msg := by
  unfold messageFieldNew at h
  split at h
  · simp at h
  · split at h
    · split at h
      · simp at h
      · split at h
        · simp at h
        · split at h
          · simp at h
          · split at h
            · simp at h
            · injection h with h2
              subst h2
              exact ⟨rfl, rfl, rfl, rfl⟩
    · split at h
      · simp at h
      · split at h
        · simp at h
        · split at h
          · simp at h
          · injection h with h2
            subst h2
            exact ⟨rfl, rfl, rfl, rfl⟩

/-- C8: every oneof variant is given Required semantics and may not carry an
explicit label or conversion hook: scalar `new_oneof` promotes Plain to
Required and errors on any explicit label; message `new_oneof` errors on any
conversion hook or label attribute and forces the Required label; and a
Required-kind field encodes its tag+value unconditionally (no default
elision). -/
theorem c8_oneof (ty : Ty) (t : Nat) :
    (∀ dflt : Option Value,
      scalarFieldNewOneof ty none none dflt (some t)
        = .ok ⟨ty, Kind.required (dflt.getD (defaultValueOf ty)), t⟩) ∧
    (∀ (l : Label) (p : Option Bool) (dflt : Option Value) (tg : Option Nat),
      (scalarFieldNewOneof ty (some l) p dflt tg).isOk = false) ∧
    (∀ (a : MsgAttrs) (tg : Option Nat),
      (a.as_msg || a.to_msg || a.from_msg || a.merge_msg) = true →
      (messageFieldNewOneof a tg).isOk = false) ∧
    (∀ (a : MsgAttrs) (tg : Option Nat), a.label.isSome = true →
      (messageFieldNewOneof a tg).isOk = false) ∧
    (∀ tg : Nat,
      messageFieldNewOneof ⟨none, false, false, false, false, false, false⟩ (some tg)
        = .ok ⟨Label.required, tg, false, false, false, false, false, false⟩) ∧
    (∀ d v : Value, encodeField ty (Kind.required d) t (FieldState.single v)
      = encOne ty t v) := by
  refine ⟨?_, ?_, ?_, ?_, ?_, ?_⟩
  · intro dflt
    cases dflt <;> rfl
  · intro l p dflt tg
    rcases tg with _ | tg
    · cases l <;> rfl
    · cases l
      · rcases p with _ | b
        · rfl
        · cases b <;> rfl
      · rcases p with _ | b
        · rfl
        · cases b <;> rfl
      · rcases p with _ | b
        · rcases dflt with _ | d
          · by_cases hn : ty.is_numeric = true <;>
              simp [scalarFieldNewOneof, scalarFieldNew, hn, Except.isOk, Except.toBool]
          · rfl
        · cases b
          · rcases dflt with _ | d <;> rfl
          · rcases dflt with _ | d <;>
              by_cases hn : ty.is_numeric = true <;>
                simp [scalarFieldNewOneof, scalarFieldNew, hn, Except.isOk, Except.toBool]
  · intro a tg hc
    cases hres : messageFieldNew a tg none with
    | error e => simp [messageFieldNewOneof, hres, Except.isOk, Except.toBool]
    | ok f =>
      obtain ⟨h1, h2, h3, h4⟩ := messageFieldNew_hooks hres
      simp only [messageFieldNewOneof, hres]
      rw [h1, h2, h3, h4]
      rw [if_pos hc]
      rfl
  · intro a tg hl
    cases hres : messageFieldNew a tg none with
    | error e => simp [messageFieldNewOneof, hres, Except.isOk, Except.toBool]
    | ok f =>
      simp only [messageFieldNewOneof, hres]
      split <;> simp [hl, Except.isOk, Except.toBool]
  · intro tg
    rfl
  · intro d v
    rfl

/-- C8 witness: a plain scalar oneof variant is promoted to Required; an
explicit optional label and a hook-bearing message variant are rejected. -/
theorem c8_witness :
    scalarFieldNewOneof Ty.uint32 none none none (some 1)
      = .ok ⟨Ty.uint32, Kind.required (Value.vU32 0), 1⟩ ∧
    (scalarFieldNewOneof Ty.uint32 (some Label.optional) none none (some 1)).isOk = false ∧
    (messageFieldNewOneof ⟨none, true, false, false, false, true, false⟩ (some 1)).isOk
      = false := by
  have h := c8_oneof Ty.uint32 1
  exact ⟨h.1 none, h.2.1 Label.optional none none (some 1),
    h.2.2.1 ⟨none, true, false, false, false, true, false⟩ (some 1) (by decide)⟩

/-! ### Message-kind field codec (`message.rs` `Field::encode` / `merge`) -/

/-- A minimal nested message: one Plain `uint32` field with tag 1 (the shape
of `Msg` in `tests/src/msg_fns.rs`). -/
structure NestedMsg where
  field : Nat
deriving DecidableEq, Repr

/-- The `Default::default()` nested message. -/
def NestedMsg.default : NestedMsg := ⟨0⟩

/-- Whole-message encoding of the nested message: its single scalar field
through the scalar field codec. -/
def nestedEncode (m : NestedMsg) : List Nat :=
  encodeField Ty.uint32 (Kind.plain (Value.vU32 0)) 1 (FieldState.single (Value.vU32 m.field))

/-- Modelled from the spec: decoding a nested-message frame body into an
existing message by the whole-message decode loop (spec section 4.4). -/
def nestedDecodeInto (m : NestedMsg) (body : List Nat) : Option NestedMsg :=
  (mergeStream Ty.uint32 (Kind.plain (Value.vU32 0)) 1
    (FieldState.single (Value.vU32 m.field)) body).bind fun st =>
      match st with
      | FieldState.single (Value.vU32 n) => some ⟨n⟩
      | _ => none

/-- Modelled from the spec: `message::merge` of the missing `encoding.rs` —
require the LengthDelimited wire type (`UnexpectedWireType` otherwise), read
the frame length and bytes (`Truncated` on shortfall), and decode the frame
body into the given message (spec sections 4.3 and 4.4). -/
def messageMerge (wt : Nat) (m : NestedMsg) (buf : List Nat) :
    Option (NestedMsg × List Nat) :=
  if wt = 2 then
    (decodeVarint buf).bind fun pr =>
      (readN pr.1 pr.2).bind fun qr =>
        (nestedDecodeInto m qr.1).map fun m2 => (m2, qr.2)
  else none

/-- Modelled from the spec: `message::encode` — tag key, frame length, frame
body (spec section 4.3). -/
def messageEncodeOne (tag : Nat) (m : NestedMsg) : List Nat :=
  encodeVarint (tag * 8 + 2) ++ (encodeVarint (nestedEncode m).length ++ nestedEncode m)

/-- From `message.rs` `Field::merge`, Optional label with a `merge_msg` hook
(lines 223-227): construct a default nested message, decode into it, then
hand `Some(msg)` to the hook to reconcile with the field. -/
def msgMergeOptionalMergeMsg {F : Type} (merge_msg : F → Option NestedMsg → F)
    (ident : F) (wt : Nat) (buf : List Nat) : Option (F × List Nat) :=
  (messageMerge wt NestedMsg.default buf).map fun pr => (merge_msg ident (some pr.1), pr.2)

/-- Optional label with a `from_msg` hook (lines 228-232): default-construct,
decode, then overwrite the field with `from_msg(Some(msg))`. -/
def msgMergeOptionalFromMsg {F : Type} (from_msg : Option NestedMsg → F)
    (_ident : F) (wt : Nat) (buf : List Nat) : Option (F × List Nat) :=
  (messageMerge wt NestedMsg.default buf).map fun pr => (from_msg (some pr.1), pr.2)

/-- Optional label without hooks (lines 233-240): decode into
`ident.get_or_insert_with(Default::default)` — the frame is merged into the
already-present message, not assigned over it. -/
def msgMergeOptionalPlain (ident : Option NestedMsg) (wt : Nat) (buf : List Nat) :
    Option (Option NestedMsg × List Nat) :=
  (messageMerge wt (ident.getD NestedMsg.default) buf).map fun pr => (some pr.1, pr.2)

/-- Required label with a `merge_msg` hook (lines 243-247). -/
def msgMergeRequiredMergeMsg {F : Type} (merge_msg : F → NestedMsg → F)
    (ident : F) (wt : Nat) (buf : List Nat) : Option (F × List Nat) :=
  (messageMerge wt NestedMsg.default buf).map fun pr => (merge_msg ident pr.1, pr.2)

/-- Required label with a `from_msg` hook (lines 248-252). -/
def msgMergeRequiredFromMsg {F : Type} (from_msg : NestedMsg → F)
    (_ident : F) (wt : Nat) (buf : List Nat) : Option (F × List Nat) :=
  (messageMerge wt NestedMsg.default buf).map fun pr => (from_msg pr.1, pr.2)

/-- Required label without hooks (lines 253-255): decode directly into the
existing message, merging rather than overwriting. -/
def msgMergeRequiredPlain (ident : NestedMsg) (wt : Nat) (buf : List Nat) :
    Option (NestedMsg × List Nat) :=
  messageMerge wt ident buf

/-- Repeated label with a `from_msg` hook (lines 266-271): push the
converted, freshly decoded message. -/
def msgMergeRepeatedFromMsg {E : Type} (from_msg : NestedMsg → E)
    (ident : List E) (wt : Nat) (buf : List Nat) : Option (List E × List Nat) :=
  (messageMerge wt NestedMsg.default buf).map fun pr => (ident ++ [from_msg pr.1], pr.2)

/-- Repeated label with only a `merge_msg` hook (lines 272-279): merge the
decoded message into a default element, then push it. -/
def msgMergeRepeatedMergeMsg {E : Type} (dfltE : E) (merge_msg : E → NestedMsg → E)
    (ident : List E) (wt : Nat) (buf : List Nat) : Option (List E × List Nat) :=
  (messageMerge wt NestedMsg.default buf).map fun pr =>
    (ident ++ [merge_msg dfltE pr.1], pr.2)

/-- Repeated label without hooks (lines 280-282): `merge_repeated` of the
missing `encoding.rs`, modelled from the spec — push a default element and
decode the frame into it, i.e. append the freshly decoded message. -/
def msgMergeRepeatedPlain (ident : List NestedMsg) (wt : Nat) (buf : List Nat) :
    Option (List NestedMsg × List Nat) :=
  (messageMerge wt NestedMsg.default buf).map fun pr => (ident ++ [pr.1], pr.2)

/-- From `message.rs` `Field::encode`, Optional label (lines 173-185): the
wire message is obtained through `as_msg`/`to_msg` (both yield an optional
borrowed message) and encoded when present. -/
def msgEncodeOptionalHook {F : Type} (hook : F → Option NestedMsg) (tag : Nat)
    (ident : F) : List Nat :=
  match hook ident with
  | some m => messageEncodeOne tag m
  | none => []

/-- Optional label without hooks (lines 177, 180-184). -/
def msgEncodeOptionalPlain (tag : Nat) (ident : Option NestedMsg) : List Nat :=
  match ident with
  | some m => messageEncodeOne tag m
  | none => []

/-- Required label with an `as_msg`/`to_msg` hook (lines 186-196). -/
def msgEncodeRequiredHook {F : Type} (hook : F → NestedMsg) (tag : Nat)
    (ident : F) : List Nat :=
  messageEncodeOne tag (hook ident)

/-- Required label without hooks (lines 190, 193-195). -/
def msgEncodeRequiredPlain (tag : Nat) (ident : NestedMsg) : List Nat :=
  messageEncodeOne tag ident

/-- Repeated label with a plural `as_msgs`/`to_msgs` hook (lines 197-202). -/
def msgEncodeRepeatedMsgs {F : Type} (hook : F → List NestedMsg) (tag : Nat)
    (ident : F) : List Nat :=
  ((hook ident).map (messageEncodeOne tag)).flatten

/-- Repeated label with a per-element `as_msg`/`to_msg` hook
(lines 203-215). -/
def msgEncodeRepeatedHook {E : Type} (hook : E → NestedMsg) (tag : Nat)
    (ident : List E) : List Nat :=
  ((ident.map hook).map (messageEncodeOne tag)).flatten

/-- Repeated label without hooks (lines 207, 210-214). -/
def msgEncodeRepeatedPlain (tag : Nat) (ident : List NestedMsg) : List Nat :=
  (ident.map (messageEncodeOne tag)).flatten

theorem nestedEncode_len (m : NestedMsg) (hm : m.field < 2 ^ 32) :
    (nestedEncode m).length < 2 ^ 64 := by
  obtain ⟨n⟩ := m
  by_cases h0 : n = 0
  · subst h0
    norm_num [show nestedEncode ⟨0⟩ = [] from rfl]
  · have hne : rustEq (Value.vU32 n) (Value.vU32 0) = false := by
      simp [rustEq, h0]
    have he : nestedEncode ⟨n⟩ = encOne Ty.uint32 1 (Value.vU32 n) := by
      simp [nestedEncode, encodeField, hne]
    rw [he]
    simp only [encOne, List.length_append]
    have h1 : vlen (1 * 8 + wireTypeOf Ty.uint32) ≤ 10 :=
      vlen_le 10 _ (by norm_num) (by norm_num [wireTypeOf])
    have h2 : vlen n ≤ 10 := vlen_le 10 n (by norm_num) (by norm_num at hm ⊢; omega)
    have h3 : rawValue Ty.uint32 (Value.vU32 n) = encodeVarint n := rfl
    rw [h3]
    rw [vlen] at h1 h2
    omega

/-- Decoding a frame that encodes `m` into a prior message `m0` keeps `m0`'s
field when the frame leaves it unset (the Plain field of an all-default `m`
is elided) and overwrites it otherwise: protobuf recursive message merge. -/
theorem messageMerge_into (m0 : NestedMsg) {m : NestedMsg} (hm : m.field < 2 ^ 32)
    (rest : List Nat) :
    messageMerge 2 m0 (encodeVarint (nestedEncode m).length ++ (nestedEncode m ++ rest))
      = some (if m.field = 0 then m0 else m, rest) := by
  obtain ⟨n⟩ := m
  by_cases h0 : n = 0
  · subst h0
    have he : nestedEncode ⟨0⟩ = [] := rfl
    rw [he, messageMerge, if_pos rfl]
    simp only [List.length_nil, List.nil_append]
    rw [decodeVarint_encodeVarint (by norm_num) rest, Option.some_bind]
    have hr : readN 0 rest = some ([], rest) := rfl
    rw [hr, Option.some_bind]
    have hd : nestedDecodeInto m0 [] = some ⟨m0.field⟩ := by
      simp [nestedDecodeInto, mergeStream, fieldLoop_nil]
    rw [hd]
    rfl
  · have hv : validValue Ty.uint32 (Value.vU32 n) = true := by
      simp only [validValue, decide_eq_true_eq]
      norm_num at hm ⊢
      omega
    have hne : rustEq (Value.vU32 n) (Value.vU32 0) = false := by
      simp [rustEq, h0]
    have he : nestedEncode ⟨n⟩ = encOne Ty.uint32 1 (Value.vU32 n) := by
      simp [nestedEncode, encodeField, hne]
    have hlen := nestedEncode_len ⟨n⟩ hm
    rw [he] at hlen
    rw [he, messageMerge, if_pos rfl,
      decodeVarint_encodeVarint hlen (encOne Ty.uint32 1 (Value.vU32 n) ++ rest),
      Option.some_bind, readN_append (encOne Ty.uint32 1 (Value.vU32 n)) rest,
      Option.some_bind]
    have hdec := decodeRaw_rawValue hv ([] : List Nat)
    rw [List.append_nil] at hdec
    have hstep : scalarMergeField Ty.uint32 (Kind.plain (Value.vU32 0))
        (FieldState.single (Value.vU32 m0.field)) (wireTypeOf Ty.uint32)
        (rawValue Ty.uint32 (Value.vU32 n)) = some (FieldState.single (Value.vU32 n), []) := by
      simp [scalarMergeField, decodeValue, hdec]
    have hms := mergeStream_encOne 1 (by norm_num) (by norm_num) hstep
    simp [nestedDecodeInto, hms, h0]

/-- Decoding a frame encoding `m` into a fresh default recovers exactly
`m`. -/
theorem messageMerge_encoded {m : NestedMsg} (hm : m.field < 2 ^ 32)
    (rest : List Nat) :
    messageMerge 2 NestedMsg.default
      (encodeVarint (nestedEncode m).length ++ (nestedEncode m ++ rest)) = some (m, rest) := by
  rw [messageMerge_into NestedMsg.default hm rest]
  obtain ⟨n⟩ := m
  by_cases h0 : n = 0
  · subst h0
    rfl
  · simp only [h0, if_neg]
    simp [h0]

/-- The merge semantics claim C4 asserts for a no-hook Required message
field, written from the claim's words: construct a default nested message,
decode the frame into it, and overwrite the field's prior value with it. -/
def specMergeRequiredOverwrite (_ident : NestedMsg) (wt : Nat) (buf : List Nat) :
    Option (NestedMsg × List Nat) :=
  messageMerge wt NestedMsg.default buf

/-- C4 counterexample: merging an empty nested frame (`[0]`: length 0) into
a Required no-hook message field holding `field = 5` keeps 5 — the code
merges into the existing message — while the claimed
construct-default-and-overwrite semantics would yield the default. -/
theorem c4_counterexample :
    msgMergeRequiredPlain ⟨5⟩ 2 [0] = some (⟨5⟩, []) ∧
    specMergeRequiredOverwrite ⟨5⟩ 2 [0] = some (NestedMsg.default, []) ∧
    (⟨5⟩ : NestedMsg) ≠ NestedMsg.default := by
  decide

/-- C4 (amended): every hook-bearing merge arm of a message-kind field
constructs a default nested message, decodes the length-delimited frame
into it, and reconciles through the hook (`from_msg` assigns, `merge_msg`
merges), and the Repeated arms append the decoded message to the end of the
sequence; but the no-hook Optional and Required arms decode the frame into
the existing message (Optional inserting a default only when absent),
merging recursively rather than overwriting — a prior nested value that the
frame does not reset survives. -/
theorem c4_message_merge {F E : Type}
    (mmO : F → Option NestedMsg → F) (fmO : Option NestedMsg → F)
    (mmR : F → NestedMsg → F) (fmR : NestedMsg → F) (fmE : NestedMsg → E)
    (f : F) (l : List E) (lm : List NestedMsg) (r r0 : NestedMsg)
    (m : NestedMsg) (hm : m.field < 2 ^ 32) (rest : List Nat) :
    (msgMergeOptionalMergeMsg mmO f 2
        (encodeVarint (nestedEncode m).length ++ (nestedEncode m ++ rest))
      = some (mmO f (some m), rest)) ∧
    (msgMergeOptionalFromMsg fmO f 2
        (encodeVarint (nestedEncode m).length ++ (nestedEncode m ++ rest))
      = some (fmO (some m), rest)) ∧
    (msgMergeRequiredMergeMsg mmR f 2
        (encodeVarint (nestedEncode m).length ++ (nestedEncode m ++ rest))
      = some (mmR f m, rest)) ∧
    (msgMergeRequiredFromMsg fmR f 2
        (encodeVarint (nestedEncode m).length ++ (nestedEncode m ++ rest))
      = some (fmR m, rest)) ∧
    (msgMergeRepeatedFromMsg fmE l 2
        (encodeVarint (nestedEncode m).length ++ (nestedEncode m ++ rest))
      = some (l ++ [fmE m], rest)) ∧
    (msgMergeRepeatedPlain lm 2
        (encodeVarint (nestedEncode m).length ++ (nestedEncode m ++ rest))
      = some (lm ++ [m], rest)) ∧
    (msgMergeRequiredPlain r 2
        (encodeVarint (nestedEncode m).length ++ (nestedEncode m ++ rest))
      = some (if m.field = 0 then r else m, rest)) ∧
    (msgMergeOptionalPlain (some r0) 2
        (encodeVarint (nestedEncode m).length ++ (nestedEncode m ++ rest))
      = some (some (if m.field = 0 then r0 else m), rest)) ∧
    (msgMergeOptionalPlain none 2
        (encodeVarint (nestedEncode m).length ++ (nestedEncode m ++ rest))
      = some (some m, rest)) := by
  have hme := messageMerge_encoded hm rest
  refine ⟨?_, ?_, ?_, ?_, ?_, ?_, ?_, ?_, ?_⟩
  · simp only [msgMergeOptionalMergeMsg, hme, Option.map_some']
  · simp only [msgMergeOptionalFromMsg, hme, Option.map_some']
  · simp only [msgMergeRequiredMergeMsg, hme, Option.map_some']
  · simp only [msgMergeRequiredFromMsg, hme, Option.map_some']
  · simp only [msgMergeRepeatedFromMsg, hme, Option.map_some']
  · simp only [msgMergeRepeatedPlain, hme, Option.map_some']
  · simp only [msgMergeRequiredPlain, messageMerge_into r hm rest]
  · simp only [msgMergeOptionalPlain, Option.getD_some, messageMerge_into r0 hm rest,
      Option.map_some']
  · simp only [msgMergeOptionalPlain, Option.getD_none, hme, Option.map_some']

/-- C4 witness: the no-hook Required merge applied to a frame carrying
`field = 7` over a prior value 5 yields 7, and the `from_msg` Optional arm
assigns the freshly decoded message. -/
theorem c4_witness :
    msgMergeRequiredPlain ⟨5⟩ 2
      (encodeVarint (nestedEncode ⟨7⟩).length ++ (nestedEncode ⟨7⟩ ++ []))
      = some (⟨7⟩, []) ∧
    msgMergeOptionalFromMsg (fun x => x) (some ⟨5⟩) 2
      (encodeVarint (nestedEncode ⟨7⟩).length ++ (nestedEncode ⟨7⟩ ++ []))
      = some (some ⟨7⟩, []) := by
  have h := c4_message_merge
    (fun (_ : Option NestedMsg) x => x) (fun x => x) (fun _ x => some x) (fun x => some x)
    (fun x : NestedMsg => x) (some ⟨5⟩) [] [] ⟨5⟩ ⟨5⟩ ⟨7⟩ (by decide) []
  exact ⟨h.2.2.2.2.2.2.1, h.2.1⟩

theorem msgRecords_length (tag : Nat) (ms : List NestedMsg) :
    ms.length ≤ ((ms.map (messageEncodeOne tag)).flatten).length := by
  induction ms with
  | nil => simp
  | cons m t ih =>
    simp only [List.map_cons, List.flatten_cons, List.length_append, List.length_cons]
    have h1 : 1 ≤ (messageEncodeOne tag m).length := by
      simp only [messageEncodeOne, List.length_append]
      have h2 := vlen_pos (tag * 8 + 2)
      rw [vlen] at h2
      omega
    omega

/-- One well-formed message record drives the single-field loop one step. -/
theorem msgStream_one {σ : Type} (step : σ → Nat → List Nat → Option (σ × List Nat))
    {tag : Nat} (htag : 1 ≤ tag) (htlt : tag < 2 ^ 29) {st0 st1 : σ} {m : NestedMsg}
    (hstep : step st0 2 (encodeVarint (nestedEncode m).length ++ nestedEncode m)
      = some (st1, [])) :
    fieldLoop step tag (messageEncodeOne tag m).length st0 (messageEncodeOne tag m)
      = some st1 := by
  rw [messageEncodeOne]
  have hfuel : 1 ≤ (encodeVarint (tag * 8 + 2)
      ++ (encodeVarint (nestedEncode m).length ++ nestedEncode m)).length := by
    simp only [List.length_append]
    have h1 := vlen_pos (tag * 8 + 2)
    rw [vlen] at h1
    omega
  have hstep' : step st0 2 ((encodeVarint (nestedEncode m).length ++ nestedEncode m) ++ [])
      = some (st1, []) := by
    rw [List.append_nil]
    exact hstep
  have h2 : encodeVarint (tag * 8 + 2) ++ (encodeVarint (nestedEncode m).length ++ nestedEncode m)
      = encodeVarint (tag * 8 + 2)
        ++ ((encodeVarint (nestedEncode m).length ++ nestedEncode m) ++ []) := by
    rw [List.append_nil]
  rw [h2] at hfuel ⊢
  rw [fieldLoop_record _ htag htlt (by norm_num) hfuel hstep', fieldLoop_nil]

/-- A run of message records merges element by element through the repeated
`from_msg` arm, appending the converted messages in order. -/
theorem fieldLoop_msg_records {E : Type} (conv : NestedMsg → E) (tag : Nat)
    (htag : 1 ≤ tag) (htlt : tag < 2 ^ 29) :
    ∀ (ms : List NestedMsg) (acc : List E) (fuel : Nat), ms.length ≤ fuel →
      (∀ x ∈ ms, x.field < 2 ^ 32) →
      fieldLoop (msgMergeRepeatedFromMsg conv) tag fuel acc
        ((ms.map (messageEncodeOne tag)).flatten) = some (acc ++ ms.map conv) := by
  intro ms
  induction ms with
  | nil =>
    intro acc fuel _ _
    simp [fieldLoop_nil]
  | cons m t ih =>
    intro acc fuel hfuel hv
    simp only [List.map_cons, List.flatten_cons]
    have hm := hv m (by simp)
    have hme := messageMerge_encoded hm ((t.map (messageEncodeOne tag)).flatten)
    have hstep : msgMergeRepeatedFromMsg conv acc 2
        ((encodeVarint (nestedEncode m).length ++ nestedEncode m)
          ++ (t.map (messageEncodeOne tag)).flatten)
        = some (acc ++ [conv m], (t.map (messageEncodeOne tag)).flatten) := by
      rw [List.append_assoc]
      simp only [msgMergeRepeatedFromMsg, hme, Option.map_some']
    have h1 : 1 ≤ fuel := by
      simp only [List.length_cons] at hfuel
      omega
    rw [messageEncodeOne, List.append_assoc]
    rw [fieldLoop_record _ htag htlt (by norm_num) h1 hstep]
    have hrec := ih (acc ++ [conv m]) (fuel - 1)
      (by simp only [List.length_cons] at hfuel; omega)
      (fun w hw => hv w (by simp [hw]))
    rw [hrec]
    simp

/-- Single-field message stream decode for the hooked dual struct: a
Required message field of stored type `Option NestedMsg` with
`from_msg = Option::Some` starting from the default `None`. -/
def msgStreamHooked (tag : Nat) (buf : List Nat) : Option (Option NestedMsg) :=
  fieldLoop (msgMergeRequiredFromMsg Option.some) tag buf.length none buf

/-- Single-field message stream decode for the hook-free dual struct: a
Required message field of stored type `NestedMsg` starting from the
default. -/
def msgStreamPlain (tag : Nat) (buf : List Nat) : Option NestedMsg :=
  fieldLoop msgMergeRequiredPlain tag buf.length NestedMsg.default buf

/-- Repeated variant of `msgStreamHooked` (stored `Vec<Option<Msg>>`,
`from_msg = Option::Some`). -/
def msgStreamHookedRep (tag : Nat) (buf : List Nat) : Option (List (Option NestedMsg)) :=
  fieldLoop (msgMergeRepeatedFromMsg Option.some) tag buf.length ([] : List (Option NestedMsg)) buf

/-- Repeated variant of `msgStreamPlain` (stored `Vec<Msg>`, no hooks). -/
def msgStreamPlainRep (tag : Nat) (buf : List Nat) : Option (List NestedMsg) :=
  fieldLoop msgMergeRepeatedPlain tag buf.length ([] : List NestedMsg) buf

/-- C3: the dual-struct equivalence of the `msg_fns` test, at the field
pairs with tags 7 and 8: a Required message field stored as `Option<Msg>`
with `as_msg = as_ref_unwrap` and a hook-free Required `Msg` field encode
byte-identically (likewise the repeated pair), and each side decodes the
shared bytes to the corresponding value (`Some`-related). -/
theorem c3_conversion_hooks (m : NestedMsg) (ms : List NestedMsg)
    (hm : m.field < 2 ^ 32) (hms : ∀ x ∈ ms, x.field < 2 ^ 32) :
    msgEncodeRequiredHook (fun x : Option NestedMsg => x.getD NestedMsg.default) 7 (some m)
      = msgEncodeRequiredPlain 7 m ∧
    msgEncodeRepeatedHook (fun x : Option NestedMsg => x.getD NestedMsg.default) 8
        (ms.map some)
      = msgEncodeRepeatedPlain 8 ms ∧
    msgStreamHooked 7 (msgEncodeRequiredPlain 7 m) = some (some m) ∧
    msgStreamPlain 7 (msgEncodeRequiredPlain 7 m) = some m ∧
    msgStreamHookedRep 8 (msgEncodeRepeatedPlain 8 ms) = some (ms.map some) ∧
    msgStreamPlainRep 8 (msgEncodeRepeatedPlain 8 ms) = some ms := by
  have hme := messageMerge_encoded hm ([] : List Nat)
  rw [List.append_nil] at hme
  refine ⟨rfl, ?_, ?_, ?_, ?_, ?_⟩
  · simp [msgEncodeRepeatedHook, msgEncodeRepeatedPlain, List.map_map, Function.comp_def]
  · have hstep : msgMergeRequiredFromMsg Option.some (none : Option NestedMsg) 2
        (encodeVarint (nestedEncode m).length ++ nestedEncode m)
        = some (some m, []) := by
      simp only [msgMergeRequiredFromMsg, hme, Option.map_some']
    exact msgStream_one _ (by norm_num) (by norm_num) hstep
  · have hstep : msgMergeRequiredPlain NestedMsg.default 2
        (encodeVarint (nestedEncode m).length ++ nestedEncode m)
        = some (m, []) := by
      simp only [msgMergeRequiredPlain, hme]
    exact msgStream_one _ (by norm_num) (by norm_num) hstep
  · have h := fieldLoop_msg_records Option.some 8 (by norm_num) (by norm_num)
      ms [] ((ms.map (messageEncodeOne 8)).flatten).length (msgRecords_length 8 ms) hms
    simpa [msgStreamHookedRep, msgEncodeRepeatedPlain] using h
  · have hplain : msgMergeRepeatedPlain = msgMergeRepeatedFromMsg (fun x : NestedMsg => x) :=
      rfl
    have h := fieldLoop_msg_records (fun x : NestedMsg => x) 8 (by norm_num)
      (by norm_num) ms [] ((ms.map (messageEncodeOne 8)).flatten).length
      (msgRecords_length 8 ms) hms
    rw [msgStreamPlainRep, msgEncodeRepeatedPlain, hplain, h]
    simp

/-- C3 witness: the dual-struct pair at a concrete message and list. -/
theorem c3_witness :
    msgStreamHooked 7 (msgEncodeRequiredPlain 7 ⟨4⟩) = some (some ⟨4⟩) ∧
    msgStreamPlainRep 8 (msgEncodeRepeatedPlain 8 [⟨8⟩, ⟨9⟩]) = some [⟨8⟩, ⟨9⟩] := by
  have h := c3_conversion_hooks ⟨4⟩ [⟨8⟩, ⟨9⟩] (by decide) (by decide)
  exact ⟨h.2.2.1, h.2.2.2.2.2⟩

end ProstSpec
